import Mathlib

/-!
Shallow embedding of the scrupyst network-fetch core:
the downloader middleware chain (`scrapy/core/downloader/middleware.py`),
the TLS context builder (`scrapy/core/downloader/tls.py`),
the aiohttp download agent (`scrapy/core/downloader/handlers/http11_aiohttp.py`),
and the deduplicating media pipeline coordinator (`scrapy/pipelines/media.py`).
-/

namespace Scrupyst

/-! ## Downloader middleware chain (`core/downloader/middleware.py`) -/

namespace Middleware

/-- An exception value crossing the middleware chain: either the chain's own
`_InvalidOutput` (raised when a middleware method returns a value of the wrong
type; it carries the identifier of the offending method, modelling the message
that names the middleware) or any other exception value. -/
inductive Exc (E : Type) where
  | invalidOutput (idx : Nat)
  | other (e : E)
deriving DecidableEq

/-- The value a middleware hook returns, as classified by the chain's
`isinstance` checks: `None`, a `Response`, a `Request`, or a value of any
other type (`bad`). -/
inductive MwOut (Resp Req : Type) where
  | none
  | resp (r : Resp)
  | req (q : Req)
  | bad
deriving DecidableEq

/-- A registered middleware object: three optional hook methods, present
exactly when the source object has the corresponding attribute
(`hasattr` checks in `_add_middleware`).  A hook may return a value
(classified by `MwOut`) or raise (`Except.error`). -/
structure MW (Req Resp E : Type) where
  process_request : Option (Req → Except (Exc E) (MwOut Resp Req))
  process_response : Option (Req → Resp → Except (Exc E) (MwOut Resp Req))
  process_exception : Option (Req → Exc E → Except (Exc E) (MwOut Resp Req))

/-- The manager's `self.methods` entries relevant to `download`: each hook is
paired with the identifier (registration index) of the middleware providing
it, used to trace invocation order. -/
structure Methods (Req Resp E : Type) where
  process_request : List (Nat × (Req → Except (Exc E) (MwOut Resp Req)))
  process_response : List (Nat × (Req → Resp → Except (Exc E) (MwOut Resp Req)))
  process_exception : List (Nat × (Req → Exc E → Except (Exc E) (MwOut Resp Req)))

/-- `_add_middleware`: `process_request` hooks are appended (registration
order); `process_response` and `process_exception` hooks are `appendleft`-ed
(reverse registration order). -/
def _add_middleware {Req Resp E : Type} (ms : Methods Req Resp E) (i : Nat)
    (mw : MW Req Resp E) : Methods Req Resp E :=
  { process_request :=
      ms.process_request ++ (mw.process_request.map fun f => (i, f)).toList
    process_response :=
      (mw.process_response.map fun f => (i, f)).toList ++ ms.process_response
    process_exception :=
      (mw.process_exception.map fun f => (i, f)).toList ++ ms.process_exception }

/-- Pair each list element with its position, starting at `n`. -/
def enumFrom {α : Type} (n : Nat) : List α → List (Nat × α)
  | [] => []
  | a :: as => (n, a) :: enumFrom (n + 1) as

/-- Register a list of middlewares in order, numbering them by position. -/
def buildMethods {Req Resp E : Type} (mws : List (MW Req Resp E)) :
    Methods Req Resp E :=
  (enumFrom 0 mws).foldl (fun ms p => _add_middleware ms p.1 p.2) ⟨[], [], []⟩

/-- The loop body of the inner `process_request` coroutine: run the
`process_request` hooks in list order on the (fixed) request; a hook
returning `None` continues, a `Response` or `Request` short-circuits, any
other value raises `_InvalidOutput`; a raising hook propagates.  Returns the
short-circuit value (if any) and the list of hook identifiers invoked. -/
def runRequestHooks {Req Resp E : Type}
    (hooks : List (Nat × (Req → Except (Exc E) (MwOut Resp Req)))) (q : Req) :
    Except (Exc E) (Option (Resp ⊕ Req)) × List Nat :=
  match hooks with
  | [] => (Except.ok Option.none, [])
  | (i, f) :: rest =>
    match f q with
    | Except.error e => (Except.error e, [i])
    | Except.ok MwOut.none =>
      let out := runRequestHooks rest q
      (out.1, i :: out.2)
    | Except.ok (MwOut.resp r) => (Except.ok (some (Sum.inl r)), [i])
    | Except.ok (MwOut.req q2) => (Except.ok (some (Sum.inr q2)), [i])
    | Except.ok MwOut.bad => (Except.error (Exc.invalidOutput i), [i])

/-- The inner `process_request` coroutine: run the hooks; if none
short-circuits, invoke `download_func` on the request. -/
def process_request {Req Resp E : Type} (ms : Methods Req Resp E)
    (download_func : Req → Except (Exc E) Resp) (q : Req) :
    Except (Exc E) (Resp ⊕ Req) × List Nat :=
  match runRequestHooks ms.process_request q with
  | (Except.error e, log) => (Except.error e, log)
  | (Except.ok (some x), log) => (Except.ok x, log)
  | (Except.ok Option.none, log) =>
    match download_func q with
    | Except.error e => (Except.error e, log)
    | Except.ok r => (Except.ok (Sum.inl r), log)

/-- The loop body of the inner `process_response` coroutine: run the
`process_response` hooks in list order, threading the current response; a
hook must return a `Response` (continue with it) or a `Request` (stop and
yield it); returning `None` or any other value raises `_InvalidOutput`. -/
def runResponseHooks {Req Resp E : Type}
    (hooks : List (Nat × (Req → Resp → Except (Exc E) (MwOut Resp Req))))
    (q : Req) (r : Resp) :
    Except (Exc E) (Resp ⊕ Req) × List Nat :=
  match hooks with
  | [] => (Except.ok (Sum.inl r), [])
  | (i, f) :: rest =>
    match f q r with
    | Except.error e => (Except.error e, [i])
    | Except.ok (MwOut.resp r2) =>
      let out := runResponseHooks rest q r2
      (out.1, i :: out.2)
    | Except.ok (MwOut.req q2) => (Except.ok (Sum.inr q2), [i])
    | Except.ok MwOut.none => (Except.error (Exc.invalidOutput i), [i])
    | Except.ok MwOut.bad => (Except.error (Exc.invalidOutput i), [i])

/-- The inner `process_response` coroutine: a `Request` input is returned
immediately, before the hook loop; a `Response` input enters the hook loop. -/
def process_response {Req Resp E : Type} (ms : Methods Req Resp E) (q : Req)
    (x : Resp ⊕ Req) : Except (Exc E) (Resp ⊕ Req) × List Nat :=
  match x with
  | Sum.inr q2 => (Except.ok (Sum.inr q2), [])
  | Sum.inl r => runResponseHooks ms.process_response q r

/-- The inner `process_exception` coroutine: run the `process_exception`
hooks in list order on the exception; `None` continues, a `Response` or
`Request` recovers (short-circuits), any other value raises
`_InvalidOutput`; if no hook recovers, the original exception is re-raised. -/
def runExceptionHooks {Req Resp E : Type}
    (hooks : List (Nat × (Req → Exc E → Except (Exc E) (MwOut Resp Req))))
    (q : Req) (e : Exc E) :
    Except (Exc E) (Resp ⊕ Req) × List Nat :=
  match hooks with
  | [] => (Except.error e, [])
  | (i, f) :: rest =>
    match f q e with
    | Except.error e2 => (Except.error e2, [i])
    | Except.ok MwOut.none =>
      let out := runExceptionHooks rest q e
      (out.1, i :: out.2)
    | Except.ok (MwOut.resp r) => (Except.ok (Sum.inl r), [i])
    | Except.ok (MwOut.req q2) => (Except.ok (Sum.inr q2), [i])
    | Except.ok MwOut.bad => (Except.error (Exc.invalidOutput i), [i])

/-- `DownloaderMiddlewareManager.download`: run the request phase; if it
raises, run the exception phase (a recovered value re-enters the response
phase, an unrecovered exception propagates); a successful request-phase
result enters the response phase.  Returns the final result together with
the identifiers invoked in the request, exception and response phases. -/
def download {Req Resp E : Type} (ms : Methods Req Resp E)
    (download_func : Req → Except (Exc E) Resp) (q : Req) :
    Except (Exc E) (Resp ⊕ Req) × List Nat × List Nat × List Nat :=
  match process_request ms download_func q with
  | (Except.error ex, logReq) =>
    match runExceptionHooks ms.process_exception q ex with
    | (Except.error e2, logExc) => (Except.error e2, logReq, logExc, [])
    | (Except.ok x, logExc) =>
      let out := process_response ms q x
      (out.1, logReq, logExc, out.2)
  | (Except.ok x, logReq) =>
    let out := process_response ms q x
    (out.1, logReq, [], out.2)

/-- Registration indices of the middlewares contributing a
`process_request` hook, in registration order. -/
def requestIds {Req Resp E : Type} (mws : List (MW Req Resp E)) : List Nat :=
  ((enumFrom 0 mws).filter fun p => p.2.process_request.isSome).map Prod.fst

/-- Registration indices of the middlewares contributing a
`process_response` hook, in registration order. -/
def responseIds {Req Resp E : Type} (mws : List (MW Req Resp E)) : List Nat :=
  ((enumFrom 0 mws).filter fun p => p.2.process_response.isSome).map Prod.fst

/-- Registration indices of the middlewares contributing a
`process_exception` hook, in registration order. -/
def exceptionIds {Req Resp E : Type} (mws : List (MW Req Resp E)) : List Nat :=
  ((enumFrom 0 mws).filter fun p => p.2.process_exception.isSome).map Prod.fst

/-- Example middleware: its request hook returns a wrongly-typed value and
its exception hook recovers any exception with a `Response`. -/
def mwBadThenRecover : MW Nat Nat Nat :=
  ⟨some (fun _ => Except.ok MwOut.bad), Option.none,
   some (fun _ _ => Except.ok (MwOut.resp 42))⟩

/-- Example middleware: only a wrongly-typed response hook. -/
def mwRespBad : MW Nat Nat Nat :=
  ⟨Option.none, some (fun _ _ => Except.ok MwOut.bad), Option.none⟩

/-- Example middleware: wrongly-typed request and exception hooks. -/
def mwBadBoth : MW Nat Nat Nat :=
  ⟨some (fun _ => Except.ok MwOut.bad), Option.none,
   some (fun _ _ => Except.ok MwOut.bad)⟩

/-- Example middleware: raising request hook, wrongly-typed response hook,
exception hook recovering with a `Response`. -/
def mwRaiseThenRecover : MW Nat Nat Nat :=
  ⟨some (fun _ => Except.error (Exc.other 3)),
   some (fun _ _ => Except.ok MwOut.bad),
   some (fun _ _ => Except.ok (MwOut.resp 42))⟩

/-- Example middleware: request hook short-circuiting with a `Request`,
plus a response hook. -/
def mwReqShort : MW Nat Nat Nat :=
  ⟨some (fun _ => Except.ok (MwOut.req 9)),
   some (fun _ r => Except.ok (MwOut.resp r)), Option.none⟩

end Middleware

/-! ## TLS context builder (`core/downloader/tls.py`) -/

namespace Tls

/-- The TLS method names recognised by the builder. -/
def METHOD_TLS : String := "TLS"

def METHOD_TLSv10 : String := "TLSv1.0"

def METHOD_TLSv11 : String := "TLSv1.1"

def METHOD_TLSv12 : String := "TLSv1.2"

def METHOD_TLSv13 : String := "TLSv1.3"

/-- The `ssl.TLSVersion` values assigned by the builder. -/
inductive TLSVersion where
  | TLSv1
  | TLSv1_1
  | TLSv1_2
  | TLSv1_3
deriving DecidableEq

/-- Certificate verification modes used by the context factories. -/
inductive VerifyMode where
  | certNone
  | certRequired
deriving DecidableEq

/-- The observable configuration of the `ssl.SSLContext` the builder
returns.  `minimumVersion`/`maximumVersion` are `none` when the builder
leaves the library defaults in place (no protocol-version pinning). -/
structure SSLContext where
  minimumVersion : Option TLSVersion
  maximumVersion : Option TLSVersion
  check_hostname : Bool
  verify_mode : VerifyMode
  loadedDefaultCerts : Bool
  requestedCiphers : Option String
  legacyServerConnect : Bool
deriving DecidableEq

/-- `get_ssl_context` (tls.py lines 28–94): `"TLS"` leaves the version
bounds at the library defaults; each explicit version name pins
`minimum_version` and `maximum_version` to that exact version; any other
string also leaves the bounds unpinned.  Verification mode, hostname
checking, default-cert loading and the cipher request are then applied, and
the legacy-server-connect option is enabled best-effort. -/
def get_ssl_context (method : String) (verify_mode : VerifyMode)
    (ciphers : Option String) (check_hostname : Bool)
    (load_default_certs : Bool) : SSLContext :=
  let base : SSLContext :=
    ⟨Option.none, Option.none, false, VerifyMode.certNone, false, Option.none,
      false⟩
  let ctx :=
    if method = METHOD_TLS then base
    else if method = METHOD_TLSv10 then
      { base with
        minimumVersion := some TLSVersion.TLSv1
        maximumVersion := some TLSVersion.TLSv1 }
    else if method = METHOD_TLSv11 then
      { base with
        minimumVersion := some TLSVersion.TLSv1_1
        maximumVersion := some TLSVersion.TLSv1_1 }
    else if method = METHOD_TLSv12 then
      { base with
        minimumVersion := some TLSVersion.TLSv1_2
        maximumVersion := some TLSVersion.TLSv1_2 }
    else if method = METHOD_TLSv13 then
      { base with
        minimumVersion := some TLSVersion.TLSv1_3
        maximumVersion := some TLSVersion.TLSv1_3 }
    else base
  { ctx with
    check_hostname := check_hostname
    verify_mode := verify_mode
    loadedDefaultCerts := load_default_certs
    requestedCiphers := ciphers
    legacyServerConnect := true }

end Tls

/-! ## Download agent (`core/downloader/handlers/http11_aiohttp.py`) -/

namespace Agent

/-- Peer IP addresses and PEM certificates, kept abstract as strings. -/
abbrev Ip := String

abbrev Cert := String

/-- A single handler result from a `send_catch_log` emission, as classified
by the agent's `isinstance(result, StopDownload)` check. -/
inductive SigResult where
  | stopDownload
  | other
deriving DecidableEq

/-- Whether any handler of an emission signalled `StopDownload`
(the `for handler, result in ...` scan). -/
def anyStop (rs : List SigResult) : Bool :=
  rs.any fun r =>
    match r with
    | SigResult.stopDownload => true
    | SigResult.other => false

/-- Outcome of `_read_body`, with the cumulative `bytes_received` count at
exit.  `stopped` is the early return after a `StopDownload` handler result
(returning the buffer accumulated so far); `cancelledTooLarge` is the
`asyncio.CancelledError` raised after `bodybuf.truncate(0)` when the
cumulative size exceeds `maxsize`; `finished` is the normal exit. -/
inductive ReadOutcome where
  | stopped (body : List Nat) (consumed : Nat)
  | cancelledTooLarge (consumed : Nat)
  | finished (body : List Nat) (consumed : Nat)
deriving DecidableEq

/-- The chunk loop of `_read_body` (lines 263–309).  `bytesSig k` gives the
handler results of the `bytes_received` emission for the `k`-th chunk.  Per
chunk, in source order: write the chunk and count its bytes; scan the signal
results and return early on `StopDownload`; raise `CancelledError` when
`maxsize` is non-zero and exceeded; record crossing `warnsize` once. -/
def _read_body_loop (bytesSig : Nat → List SigResult) (maxsize warnsize : Nat) :
    List (List Nat) → Nat → List Nat → Nat → Bool → ReadOutcome
  | [], _, bodybuf, bytes_received, _ => ReadOutcome.finished bodybuf bytes_received
  | chunk :: rest, k, bodybuf, bytes_received, reached_warnsize =>
    let bodybuf2 := bodybuf ++ chunk
    let bytes2 := bytes_received + chunk.length
    if anyStop (bytesSig k) then ReadOutcome.stopped bodybuf2 bytes2
    else if maxsize ≠ 0 ∧ maxsize < bytes2 then ReadOutcome.cancelledTooLarge bytes2
    else
      let rw := if warnsize ≠ 0 ∧ warnsize < bytes2 ∧ ¬reached_warnsize then
        true else reached_warnsize
      _read_body_loop bytesSig maxsize warnsize rest (k + 1) bodybuf2 bytes2 rw

/-- `_read_body` (lines 250–310): run the chunk loop from an empty buffer. -/
def _read_body (bytesSig : Nat → List SigResult) (maxsize warnsize : Nat)
    (chunks : List (List Nat)) : ReadOutcome :=
  _read_body_loop bytesSig maxsize warnsize chunks 0 [] 0 false

/-- The observable parts of the Scrapy `Response` the agent builds. -/
structure Resp where
  body : List Nat
  flags : List String
  certificate : Option Cert
  ip_address : Option Ip
deriving DecidableEq

/-- `_build_response` (lines 312–339): `flags`, `ip_address` and
`certificate` are keyword parameters defaulting to `None`; a `None`
`flags` becomes the empty flag list on the `Response`. -/
def _build_response (body : List Nat) (flags : Option (List String))
    (ip_address : Option Ip) (certificate : Option Cert) : Resp :=
  ⟨body, flags.getD [], certificate, ip_address⟩

/-- Outcome of `download_request` from the headers-received point on:
either a built `Response`, or one of the two `asyncio.CancelledError`
raises (declared size over `maxsize` before the body read; streamed size
over `maxsize` during the body read). -/
inductive FetchOutcome where
  | resp (r : Resp)
  | cancelledExpectedTooLarge
  | cancelledBodyTooLarge
deriving DecidableEq

/-- What the transport exposes on the open connection: an optional peer
address and an optional peer certificate (`None` models a missing
connection or the caught `AttributeError`/`ValueError` paths). -/
def connIp (conn : Option (Option Ip × Option Cert)) : Option Ip :=
  match conn with
  | some c => c.1
  | Option.none => Option.none

/-- The peer certificate the agent extracts (PEM-converted) from the
transport, lines 226–236. -/
def connCert (conn : Option (Option Ip × Option Cert)) : Option Cert :=
  match conn with
  | some c => c.2
  | Option.none => Option.none

/-- Python `response.content_length or -1`: an undeclared (or zero)
Content-Length becomes `-1`. -/
def expectedSize (contentLength : Option Nat) : Int :=
  match contentLength with
  | some n => if n = 0 then -1 else (n : Int)
  | Option.none => -1

/-- `download_request` (lines 119–248) from the `headers_received`
emission on.  `headersSig` gives the handler results of that emission;
`maxsize`/`warnsize` are the effective values (request-meta override or
handler default).  A `StopDownload` handler result at the headers stage
returns an empty-body response flagged `download_stopped`; a declared
Content-Length over `maxsize` raises `CancelledError` before any body
read; otherwise the body is streamed by `_read_body` and the response is
built with the extracted `ip_address` — the extracted `certificate` is
computed (lines 226–236) but not passed to `_build_response` (line 239),
whose `certificate` parameter therefore keeps its `None` default. -/
def download_request (headersSig : List SigResult) (contentLength : Option Nat)
    (maxsize warnsize : Nat) (chunks : List (List Nat))
    (bytesSig : Nat → List SigResult)
    (conn : Option (Option Ip × Option Cert)) : FetchOutcome :=
  if anyStop headersSig then
    FetchOutcome.resp
      (_build_response [] (some ["download_stopped"]) Option.none Option.none)
  else if maxsize ≠ 0 ∧ (maxsize : Int) < expectedSize contentLength then
    FetchOutcome.cancelledExpectedTooLarge
  else
    match _read_body bytesSig maxsize warnsize chunks with
    | ReadOutcome.cancelledTooLarge _ => FetchOutcome.cancelledBodyTooLarge
    | ReadOutcome.stopped body _ =>
      FetchOutcome.resp (_build_response body Option.none (connIp conn) Option.none)
    | ReadOutcome.finished body _ =>
      FetchOutcome.resp (_build_response body Option.none (connIp conn) Option.none)

/-- A URL as seen by `urlparse`: only the userinfo fields matter here.
`urlparse` yields `None` for absent components and the empty string is
falsy in the `if proxy_parsed.username` test. -/
structure Url where
  username : Option String
  password : Option String
deriving DecidableEq

/-- The parts of a `Request` the proxy-resolution code reads: its own URL
and the optional proxy URL from `request.meta`. -/
structure ProxyReq where
  url : Url
  metaProxy : Option Url
deriving DecidableEq

/-- `aiohttp.BasicAuth(login, password)`. -/
structure BasicAuth where
  login : String
  password : String
deriving DecidableEq

/-- Proxy-credential resolution, `download_request` lines 128–137: when a
proxy is set in `request.meta`, the code parses `urlparse_cached(request)`
— i.e. the request's own URL — and builds `BasicAuth` from its userinfo
(`password or ""` turning an absent password into the empty string).  The
proxy URL's own userinfo is never consulted. -/
def resolveProxyAuth (req : ProxyReq) : Option BasicAuth :=
  match req.metaProxy with
  | Option.none => Option.none
  | some _ =>
    let proxy_parsed := req.url
    match proxy_parsed.username with
    | some u =>
      if u ≠ "" then some ⟨u, proxy_parsed.password.getD ""⟩ else Option.none
    | Option.none => Option.none

end Agent

/-! ## Dedup media pipeline coordinator (`pipelines/media.py`)

`MediaPipeline._process_request` runs on a single-threaded event loop:
code between `await` points executes atomically.  We model each atomic
section as one transition of a small-step system over the coordinator
state (`SpiderInfo.downloading` / `downloaded` / `waiting`), a queue of
`call_later`-scheduled future resolutions, and one record per caller
(its request's fingerprint, its control point, and the outcome its
future was resolved with).  Callers carry no errback (`eb = None`), the
sanctioned case for media requests created with `NO_CALLBACK`. -/

namespace Media

/-- The terminal value cached in `downloaded[fp]`: a `FileInfo` on success
or the `Failure`'s error value (after `_cache_result_and_execute_waiters`
strips its frames and back-references).  A waiter's future is resolved
with the `FileInfo` (`wad.set_result`) or with the error value
(`wad.set_exception result.value`); the post-completion cached path
returns the `FileInfo` or re-raises the error (`raiseException`). -/
inductive FetchResult (FI E : Type) where
  | ok (fi : FI)
  | err (e : E)
deriving DecidableEq

/-- Control points of one `_process_request` invocation, one per atomic
section:
* `entry` — about to run the prologue (cache check, waiter registration,
  `downloading` check);
* `cachedPause` — took the `fp in info.downloaded` branch and is suspended
  at its `await _defer_sleep()`;
* `fetching` — the leader, between `info.downloading.add(fp)` and the call
  to `_cache_result_and_execute_waiters`;
* `waitingFut` — suspended at `await wad`;
* `done` — the future was resolved (or the cached branch returned). -/
inductive PC where
  | entry
  | cachedPause
  | fetching
  | waitingFut
  | done
deriving DecidableEq

/-- One caller of `_process_request`: its request's fingerprint, its
control point, and the terminal value delivered to it (set when its
future is resolved, or when the cached branch returns). -/
structure Caller (FP FI E : Type) where
  fp : FP
  pc : PC
  outcome : Option (FetchResult FI E)
deriving DecidableEq

/-- The coordinator state: `SpiderInfo.downloading` (a set, kept as a
duplicate-free list), `SpiderInfo.downloaded` (an insert-only association
list mirroring the dict), `SpiderInfo.waiting` flattened to
(fingerprint, caller) pairs in arrival order, the queue of `call_later`
future resolutions scheduled by `_cache_result_and_execute_waiters`, the
callers, and a log with one entry per download chain started (the
`info.downloading.add(fp)` / fetch section of `_process_request`). -/
structure CoordState (FP FI E : Type) where
  downloading : List FP
  downloaded : List (FP × FetchResult FI E)
  waiting : List (FP × Nat)
  pending : List (Nat × FetchResult FI E)
  callers : List (Caller FP FI E)
  fetchLog : List (Nat × FP)
deriving DecidableEq

/-- First-match lookup in the `downloaded` association list (dict access). -/
def lookupD {FP FI E : Type} [DecidableEq FP] (fp : FP) :
    List (FP × FetchResult FI E) → Option (FetchResult FI E)
  | [] => Option.none
  | (fp2, r) :: rest => if fp2 = fp then some r else lookupD fp rest

/-- The schedulable atomic sections:
* `arrive i` — caller `i` runs the `_process_request` prologue;
* `readCache i` — caller `i` resumes after the cached branch's
  `_defer_sleep` and reads `downloaded[fp]`;
* `complete i r` — leader `i`'s fetch settles with `r` (`media_to_download`
  / `_check_media_to_download` result, or `Failure(e)` from the `except`
  clause) and it runs `_cache_result_and_execute_waiters`;
* `deliver` — the earliest scheduled `call_later` fires and resolves that
  waiter's future. -/
inductive Act (FP FI E : Type) where
  | arrive (i : Nat)
  | readCache (i : Nat)
  | complete (i : Nat) (r : FetchResult FI E)
  | deliver
deriving DecidableEq

/-- One transition: run an atomic section if it is enabled in `s`.
`arrive` mirrors lines 141–173 of `_process_request` (cache check; append
the caller's future to `waiting[fp]`; register as waiter if
`fp ∈ downloading`, otherwise add `fp` to `downloading` and start the
download chain).  `readCache` mirrors lines 149–155.  `complete` mirrors
`_cache_result_and_execute_waiters` (lines 222–257): remove `fp` from
`downloading`, cache the result, pop `waiting[fp]` and schedule one
future resolution per waiter; the leader then blocks on `await wad`.
`deliver` resolves the head of the scheduled queue. -/
def applyAct {FP FI E : Type} [DecidableEq FP] (s : CoordState FP FI E) :
    Act FP FI E → Option (CoordState FP FI E)
  | Act.arrive i =>
    match s.callers[i]? with
    | Option.none => Option.none
    | some c =>
      if c.pc ≠ PC.entry then Option.none
      else if (lookupD c.fp s.downloaded).isSome then
        some { s with callers := s.callers.set i { c with pc := PC.cachedPause } }
      else if c.fp ∈ s.downloading then
        some { s with
               waiting := s.waiting ++ [(c.fp, i)]
               callers := s.callers.set i { c with pc := PC.waitingFut } }
      else
        some { s with
               waiting := s.waiting ++ [(c.fp, i)]
               downloading := s.downloading ++ [c.fp]
               fetchLog := s.fetchLog ++ [(i, c.fp)]
               callers := s.callers.set i { c with pc := PC.fetching } }
  | Act.readCache i =>
    match s.callers[i]? with
    | Option.none => Option.none
    | some c =>
      if c.pc ≠ PC.cachedPause then Option.none
      else
        match lookupD c.fp s.downloaded with
        | Option.none => Option.none
        | some r =>
          some { s with
                 callers := s.callers.set i
                   { c with pc := PC.done, outcome := some r } }
  | Act.complete i r =>
    match s.callers[i]? with
    | Option.none => Option.none
    | some c =>
      if c.pc ≠ PC.fetching then Option.none
      else
        some { s with
               downloading := s.downloading.erase c.fp
               downloaded := s.downloaded ++ [(c.fp, r)]
               waiting := s.waiting.filter fun p => p.1 ≠ c.fp
               pending := s.pending ++
                 ((s.waiting.filter fun p => p.1 = c.fp).map fun p => (p.2, r))
               callers := s.callers.set i { c with pc := PC.waitingFut } }
  | Act.deliver =>
    match s.pending with
    | [] => Option.none
    | (j, r) :: rest =>
      match s.callers[j]? with
      | Option.none => Option.none
      | some c =>
        some { s with
               pending := rest
               callers := s.callers.set j
                 { c with pc := PC.done, outcome := some r } }

/-- One scheduler step: some enabled atomic section runs. -/
def StepRel {FP FI E : Type} [DecidableEq FP]
    (s s2 : CoordState FP FI E) : Prop :=
  ∃ a, applyAct s a = some s2

/-- Reachability under interleaved scheduling. -/
def Reaches {FP FI E : Type} [DecidableEq FP] :
    CoordState FP FI E → CoordState FP FI E → Prop :=
  Relation.ReflTransGen StepRel

/-- Run a concrete schedule (for exhibiting executions). -/
def runActs {FP FI E : Type} [DecidableEq FP] (s : CoordState FP FI E) :
    List (Act FP FI E) → Option (CoordState FP FI E)
  | [] => some s
  | a :: as =>
    match applyAct s a with
    | Option.none => Option.none
    | some s2 => runActs s2 as

/-- The state at `open_spider` plus one fresh `_process_request` call per
listed fingerprint: empty coordinator state, every caller at `entry`. -/
def initState (FP FI E : Type) (fps : List FP) : CoordState FP FI E :=
  { downloading := []
    downloaded := []
    waiting := []
    pending := []
    callers := fps.map fun fp => ⟨fp, PC.entry, Option.none⟩
    fetchLog := [] }

/-- Number of download chains started for a fingerprint. -/
def fetchCount {FP FI E : Type} [DecidableEq FP] (fp : FP)
    (s : CoordState FP FI E) : Nat :=
  (s.fetchLog.filter fun p => p.2 = fp).length

/-- The coordinator-state invariant maintained by every atomic section:
`downloading` is duplicate-free and disjoint from the cache's keys; a
download chain has been started for `fp` exactly when `fp` has moved past
not-seen (it is in `downloading` or in `downloaded`); a `fetching` caller's
fingerprint is in `downloading`, and no two distinct callers fetch the same
fingerprint; a caller suspended in the cached branch has a cache entry for
its fingerprint; any delivered outcome (a caller's, or one sitting in the
scheduled queue) equals the cached result for that caller's fingerprint;
a `done` caller has an outcome; and every waiter slot belongs to a caller
with that fingerprint, which is still in `downloading`. -/
structure Inv {FP FI E : Type} [DecidableEq FP] (s : CoordState FP FI E) :
    Prop where
  nodupDl : s.downloading.Nodup
  excl : ∀ fp : FP, fp ∈ s.downloading → lookupD fp s.downloaded = Option.none
  fetch_iff : ∀ fp : FP, fetchCount fp s =
    (if fp ∈ s.downloading ∨ (lookupD fp s.downloaded).isSome then 1 else 0)
  fetching_dl : ∀ (i : Nat) (c : Caller FP FI E), s.callers[i]? = some c →
    c.pc = PC.fetching → c.fp ∈ s.downloading
  fetching_uniq : ∀ (i j : Nat) (ci cj : Caller FP FI E),
    s.callers[i]? = some ci → s.callers[j]? = some cj →
    ci.pc = PC.fetching → cj.pc = PC.fetching → ci.fp = cj.fp → i = j
  cachedp : ∀ (i : Nat) (c : Caller FP FI E), s.callers[i]? = some c →
    c.pc = PC.cachedPause → (lookupD c.fp s.downloaded).isSome
  outc : ∀ (i : Nat) (c : Caller FP FI E) (r : FetchResult FI E),
    s.callers[i]? = some c → c.outcome = some r →
    lookupD c.fp s.downloaded = some r
  pend : ∀ (j : Nat) (r : FetchResult FI E), (j, r) ∈ s.pending →
    ∃ c : Caller FP FI E, s.callers[j]? = some c ∧
      lookupD c.fp s.downloaded = some r
  done_out : ∀ (i : Nat) (c : Caller FP FI E), s.callers[i]? = some c →
    c.pc = PC.done → c.outcome.isSome
  wait_dl : ∀ (fp : FP) (j : Nat), (fp, j) ∈ s.waiting → fp ∈ s.downloading
  wait_fp : ∀ (fp : FP) (j : Nat), (fp, j) ∈ s.waiting →
    ∃ c : Caller FP FI E, s.callers[j]? = some c ∧ c.fp = fp

/-- A concrete two-caller run (both callers share fingerprint 0): the
state after the first caller's prologue made it the leader. -/
def exampleMid : CoordState Nat Nat Nat :=
  { downloading := [0]
    downloaded := []
    waiting := [(0, 0)]
    pending := []
    callers := [⟨0, PC.fetching, Option.none⟩, ⟨0, PC.entry, Option.none⟩]
    fetchLog := [(0, 0)] }

/-- The same run after the leader completed with `ok 5` and its own
delivery fired, the second caller still at entry. -/
def exampleCached : CoordState Nat Nat Nat :=
  { downloading := []
    downloaded := [(0, FetchResult.ok 5)]
    waiting := []
    pending := []
    callers := [⟨0, PC.done, some (FetchResult.ok 5)⟩,
                ⟨0, PC.entry, Option.none⟩]
    fetchLog := [(0, 0)] }

/-- The run where both callers arrived concurrently before completion and
both deliveries fired: everyone is done with the single cached result. -/
def exampleAllDone : CoordState Nat Nat Nat :=
  { downloading := []
    downloaded := [(0, FetchResult.ok 5)]
    waiting := []
    pending := []
    callers := [⟨0, PC.done, some (FetchResult.ok 5)⟩,
                ⟨0, PC.done, some (FetchResult.ok 5)⟩]
    fetchLog := [(0, 0)] }

end Media

/-! ## Theorems -/

namespace Tls

/-- Claim C9: `get_ssl_context` with method `"TLS"` returns a context with
no minimum/maximum protocol-version pinning (the library negotiates the
highest mutually supported version), and with each explicit version name
`TLSv1.0`, `TLSv1.1`, `TLSv1.2`, `TLSv1.3` it returns a context whose
`minimum_version` and `maximum_version` are both set to exactly that
version — for every combination of the remaining arguments. -/
theorem tls_method_version_pinning (v : VerifyMode) (c : Option String)
    (ch ld : Bool) :
    ((get_ssl_context METHOD_TLS v c ch ld).minimumVersion = Option.none ∧
     (get_ssl_context METHOD_TLS v c ch ld).maximumVersion = Option.none) ∧
    ((get_ssl_context METHOD_TLSv10 v c ch ld).minimumVersion
        = some TLSVersion.TLSv1 ∧
     (get_ssl_context METHOD_TLSv10 v c ch ld).maximumVersion
        = some TLSVersion.TLSv1) ∧
    ((get_ssl_context METHOD_TLSv11 v c ch ld).minimumVersion
        = some TLSVersion.TLSv1_1 ∧
     (get_ssl_context METHOD_TLSv11 v c ch ld).maximumVersion
        = some TLSVersion.TLSv1_1) ∧
    ((get_ssl_context METHOD_TLSv12 v c ch ld).minimumVersion
        = some TLSVersion.TLSv1_2 ∧
     (get_ssl_context METHOD_TLSv12 v c ch ld).maximumVersion
        = some TLSVersion.TLSv1_2) ∧
    ((get_ssl_context METHOD_TLSv13 v c ch ld).minimumVersion
        = some TLSVersion.TLSv1_3 ∧
     (get_ssl_context METHOD_TLSv13 v c ch ld).maximumVersion
        = some TLSVersion.TLSv1_3) :=
  ⟨⟨rfl, rfl⟩, ⟨rfl, rfl⟩, ⟨rfl, rfl⟩, ⟨rfl, rfl⟩, ⟨rfl, rfl⟩⟩

end Tls

namespace Agent

/-- Claim C8 (code bug): the agent is meant to resolve proxy credentials
from the metadata proxy URL's embedded userinfo, but `download_request`
parses `urlparse_cached(request)` — the request's own URL.  At the failing
input (request URL without userinfo, meta proxy URL carrying
`user:pw`) the code produces no proxy credentials; conversely, userinfo on
the request's own URL is wrongly turned into proxy credentials. -/
theorem proxy_auth_reads_request_url :
    resolveProxyAuth ⟨⟨Option.none, Option.none⟩, some ⟨some "user", some "pw"⟩⟩
        = Option.none ∧
    resolveProxyAuth ⟨⟨some "ru", some "rp"⟩, some ⟨Option.none, Option.none⟩⟩
        = some ⟨"ru", "rp"⟩ := by
  constructor
  · rfl
  · rfl

/-- Claim C7 (code bug): on a successfully completed fetch whose transport
exposes a peer certificate, the `Response` is supposed to carry that
certificate (PEM) in its certificate field.  The code extracts the
certificate (`connCert` here yields it) but `_build_response` is invoked
without it, so the built response's certificate field is `None`; the peer
IP address is carried. -/
theorem certificate_extracted_but_dropped :
    connCert (some (some "10.0.0.1", some "PEMCERT")) = some "PEMCERT" ∧
    download_request [] Option.none 0 0 [[7]] (fun _ => [])
        (some (some "10.0.0.1", some "PEMCERT"))
      = FetchOutcome.resp ⟨[7], [], Option.none, some "10.0.0.1"⟩ := by
  constructor
  · rfl
  · rfl

/-- Claim C3 (code bug): when a `bytes_received` handler signals
`StopDownload` after the chunk at index 1, the agent returns immediately a
response whose body is exactly the bytes accumulated so far (the first two
chunks) and reads no further chunk (the result is the same for every
continuation `extra` of the stream) — but the response's flag list is
empty: the `download_stopped` flag the claim requires is only set on the
`headers_received` stop path, not on the `bytes_received` stop path. -/
theorem bytes_stop_returns_body_without_flag (extra : List (List Nat)) :
    download_request [] Option.none 0 0 ([[1, 2], [3, 4]] ++ extra)
        (fun k => if k = 1 then [SigResult.stopDownload] else []) Option.none
      = FetchOutcome.resp ⟨[1, 2, 3, 4], [], Option.none, Option.none⟩ := by
  rfl

end Agent

namespace Middleware

/-- Claim C10: whenever the request phase yields a `Request` (a
request-interceptor returned a `Request` instead of a `Response`),
`download` returns exactly that `Request` and no response-interceptor is
invoked (the response-phase invocation log is empty). -/
theorem request_phase_request_skips_response_hooks {Req Resp E : Type}
    (ms : Methods Req Resp E) (df : Req → Except (Exc E) Resp) (q : Req)
    (q2 : Req) (h : (process_request ms df q).1 = Except.ok (Sum.inr q2)) :
    (download ms df q).1 = Except.ok (Sum.inr q2) ∧
    (download ms df q).2.2.2 = [] := by
  cases hpr : process_request ms df q with
  | mk res log =>
    rw [hpr] at h
    simp only at h
    subst h
    simp [download, hpr, process_response]

/-- Witness for C10: one registered middleware whose request hook returns
a `Request`; `download` yields that `Request` with an empty
response-phase log. -/
theorem request_phase_request_skips_response_hooks_witness :
    (download (buildMethods [mwReqShort]) (fun _ => Except.ok 0) 0).1
        = Except.ok (Sum.inr 9) ∧
    (download (buildMethods [mwReqShort]) (fun _ => Except.ok 0) 0).2.2.2
        = [] :=
  request_phase_request_skips_response_hooks (buildMethods [mwReqShort])
    (fun _ => Except.ok 0) 0 9 rfl

/-- Claim C5 is false on the code (counterexample): a middleware whose
request hook returns a wrongly-typed value makes the request phase raise
`_InvalidOutput`, but that exception enters the exception phase, where the
same middleware's exception-interceptor converts it into a `Response` —
`download` returns `Response 42` to the caller instead of propagating the
`_InvalidOutput`. -/
theorem invalidOutput_recovered_counterexample :
    (runRequestHooks (buildMethods [mwBadThenRecover]).process_request 0).1
        = Except.error (Exc.invalidOutput 0) ∧
    (download (buildMethods [mwBadThenRecover]) (fun _ => Except.ok 0) 0).1
        = Except.ok (Sum.inl 42) := by
  constructor
  · rfl
  · rfl

/-- Claim C5 as amended: an `_InvalidOutput` raised during the response
phase, or during the exception phase, propagates unchanged to the
immediate caller of the chain; an `_InvalidOutput` raised during the
request phase is handled like any other exception — it enters the
exception phase, where an exception-interceptor may convert it into a
`Response` or `Request`.  The three conjuncts cover: a response-phase
`_InvalidOutput` after a successful request phase; an exception-phase
`_InvalidOutput`; and a response-phase `_InvalidOutput` after the
exception phase recovered. -/
theorem invalidOutput_late_phases_propagate {Req Resp E : Type}
    (ms : Methods Req Resp E) (df : Req → Except (Exc E) Resp) (q : Req) :
    (∀ (x : Resp ⊕ Req) (m : Nat),
      (process_request ms df q).1 = Except.ok x →
      (process_response ms q x).1 = Except.error (Exc.invalidOutput m) →
      (download ms df q).1 = Except.error (Exc.invalidOutput m)) ∧
    (∀ (ex : Exc E) (m : Nat),
      (process_request ms df q).1 = Except.error ex →
      (runExceptionHooks ms.process_exception q ex).1
          = Except.error (Exc.invalidOutput m) →
      (download ms df q).1 = Except.error (Exc.invalidOutput m)) ∧
    (∀ (ex : Exc E) (x : Resp ⊕ Req) (m : Nat),
      (process_request ms df q).1 = Except.error ex →
      (runExceptionHooks ms.process_exception q ex).1 = Except.ok x →
      (process_response ms q x).1 = Except.error (Exc.invalidOutput m) →
      (download ms df q).1 = Except.error (Exc.invalidOutput m)) := by
  refine ⟨?_, ?_, ?_⟩
  · intro x m h1 h2
    cases hpr : process_request ms df q with
    | mk res log =>
      rw [hpr] at h1
      simp only at h1
      subst h1
      cases hresp : process_response ms q x with
      | mk res2 log2 =>
        rw [hresp] at h2
        simp only at h2
        subst h2
        simp [download, hpr, hresp]
  · intro ex m h1 h2
    cases hpr : process_request ms df q with
    | mk res log =>
      rw [hpr] at h1
      simp only at h1
      subst h1
      cases hexc : runExceptionHooks ms.process_exception q ex with
      | mk res2 log2 =>
        rw [hexc] at h2
        simp only at h2
        subst h2
        simp [download, hpr, hexc]
  · intro ex x m h1 h2 h3
    cases hpr : process_request ms df q with
    | mk res log =>
      rw [hpr] at h1
      simp only at h1
      subst h1
      cases hexc : runExceptionHooks ms.process_exception q ex with
      | mk res2 log2 =>
        rw [hexc] at h2
        simp only at h2
        subst h2
        cases hresp : process_response ms q x with
        | mk res3 log3 =>
          rw [hresp] at h3
          simp only at h3
          subst h3
          simp [download, hpr, hexc, hresp]

/-- Witness for the amended C5, exercising all three conjuncts: a bad
response hook after a clean request phase; a bad exception hook after an
`_InvalidOutput`-raising request phase; and a bad response hook after the
exception phase recovered a raising request hook. -/
theorem invalidOutput_late_phases_propagate_witness :
    (download (buildMethods [mwRespBad]) (fun _ => Except.ok 0) 0).1
        = Except.error (Exc.invalidOutput 0) ∧
    (download (buildMethods [mwBadBoth]) (fun _ => Except.ok 0) 0).1
        = Except.error (Exc.invalidOutput 0) ∧
    (download (buildMethods [mwRaiseThenRecover]) (fun _ => Except.ok 0) 0).1
        = Except.error (Exc.invalidOutput 0) :=
  ⟨(invalidOutput_late_phases_propagate (buildMethods [mwRespBad])
      (fun _ => Except.ok 0) 0).1 (Sum.inl 0) 0 rfl rfl,
   (invalidOutput_late_phases_propagate (buildMethods [mwBadBoth])
      (fun _ => Except.ok 0) 0).2.1 (Exc.invalidOutput 0) 0 rfl rfl,
   (invalidOutput_late_phases_propagate (buildMethods [mwRaiseThenRecover])
      (fun _ => Except.ok 0) 0).2.2 (Exc.other 3) (Sum.inl 42) 0 rfl rfl rfl⟩

theorem runRequestHooks_log_take {Req Resp E : Type} (q : Req) :
    ∀ hooks : List (Nat × (Req → Except (Exc E) (MwOut Resp Req))),
    ∃ k, (runRequestHooks hooks q).2 = (hooks.map Prod.fst).take k := by
  intro hooks
  induction hooks with
  | nil => exact ⟨0, rfl⟩
  | cons p rest ih =>
    obtain ⟨i, f⟩ := p
    cases hf : f q with
    | error e => exact ⟨1, by simp [runRequestHooks, hf]⟩
    | ok m =>
      cases m with
      | none =>
        obtain ⟨k, hk⟩ := ih
        exact ⟨k + 1, by simp [runRequestHooks, hf, hk]⟩
      | resp r => exact ⟨1, by simp [runRequestHooks, hf]⟩
      | req q2 => exact ⟨1, by simp [runRequestHooks, hf]⟩
      | bad => exact ⟨1, by simp [runRequestHooks, hf]⟩

theorem runResponseHooks_log_take {Req Resp E : Type} (q : Req) :
    ∀ (hooks : List (Nat × (Req → Resp → Except (Exc E) (MwOut Resp Req))))
      (r : Resp),
    ∃ k, (runResponseHooks hooks q r).2 = (hooks.map Prod.fst).take k := by
  intro hooks
  induction hooks with
  | nil => exact fun r => ⟨0, rfl⟩
  | cons p rest ih =>
    intro r
    obtain ⟨i, f⟩ := p
    cases hf : f q r with
    | error e => exact ⟨1, by simp [runResponseHooks, hf]⟩
    | ok m =>
      cases m with
      | none => exact ⟨1, by simp [runResponseHooks, hf]⟩
      | resp r2 =>
        obtain ⟨k, hk⟩ := ih r2
        exact ⟨k + 1, by simp [runResponseHooks, hf, hk]⟩
      | req q2 => exact ⟨1, by simp [runResponseHooks, hf]⟩
      | bad => exact ⟨1, by simp [runResponseHooks, hf]⟩

theorem runExceptionHooks_log_take {Req Resp E : Type} (q : Req) (e : Exc E) :
    ∀ hooks : List (Nat × (Req → Exc E → Except (Exc E) (MwOut Resp Req))),
    ∃ k, (runExceptionHooks hooks q e).2 = (hooks.map Prod.fst).take k := by
  intro hooks
  induction hooks with
  | nil => exact ⟨0, rfl⟩
  | cons p rest ih =>
    obtain ⟨i, f⟩ := p
    cases hf : f q e with
    | error e2 => exact ⟨1, by simp [runExceptionHooks, hf]⟩
    | ok m =>
      cases m with
      | none =>
        obtain ⟨k, hk⟩ := ih
        exact ⟨k + 1, by simp [runExceptionHooks, hf, hk]⟩
      | resp r => exact ⟨1, by simp [runExceptionHooks, hf]⟩
      | req q2 => exact ⟨1, by simp [runExceptionHooks, hf]⟩
      | bad => exact ⟨1, by simp [runExceptionHooks, hf]⟩

theorem foldl_add_ids {Req Resp E : Type} :
    ∀ (ps : List (Nat × MW Req Resp E)) (ms : Methods Req Resp E),
    ((ps.foldl (fun ms p => _add_middleware ms p.1 p.2) ms).process_request).map
        Prod.fst
      = ms.process_request.map Prod.fst ++
        ((ps.filter fun p => p.2.process_request.isSome).map Prod.fst) ∧
    ((ps.foldl (fun ms p => _add_middleware ms p.1 p.2) ms).process_response).map
        Prod.fst
      = (((ps.filter fun p => p.2.process_response.isSome).map Prod.fst).reverse)
        ++ ms.process_response.map Prod.fst ∧
    ((ps.foldl (fun ms p => _add_middleware ms p.1 p.2) ms).process_exception).map
        Prod.fst
      = (((ps.filter fun p => p.2.process_exception.isSome).map Prod.fst).reverse)
        ++ ms.process_exception.map Prod.fst := by
  intro ps
  induction ps with
  | nil => intro ms; simp
  | cons p rest ih =>
    intro ms
    obtain ⟨i, mw⟩ := p
    obtain ⟨h1, h2, h3⟩ := ih (_add_middleware ms i mw)
    refine ⟨?_, ?_, ?_⟩
    · rw [List.foldl_cons, h1]
      cases hmw : mw.process_request with
      | none => simp [_add_middleware, hmw, List.filter_cons]
      | some f => simp [_add_middleware, hmw, List.filter_cons]
    · rw [List.foldl_cons, h2]
      cases hmw : mw.process_response with
      | none => simp [_add_middleware, hmw, List.filter_cons]
      | some f => simp [_add_middleware, hmw, List.filter_cons]
    · rw [List.foldl_cons, h3]
      cases hmw : mw.process_exception with
      | none => simp [_add_middleware, hmw, List.filter_cons]
      | some f => simp [_add_middleware, hmw, List.filter_cons]

/-- Claim C6: for every list of registered middlewares, registration builds
the request-hook list in registration order and the response- and
exception-hook lists in reverse registration order, and every run of
`download` invokes hooks along those lists from the front (each phase's
invocation log is an initial segment `take k` of the corresponding id
list): request-interceptors run first-registered first, response- and
exception-interceptors run last-registered first. -/
theorem middleware_invocation_order {Req Resp E : Type}
    (mws : List (MW Req Resp E)) (df : Req → Except (Exc E) Resp) (q : Req) :
    ((buildMethods mws).process_request.map Prod.fst = requestIds mws ∧
     (buildMethods mws).process_response.map Prod.fst
        = (responseIds mws).reverse ∧
     (buildMethods mws).process_exception.map Prod.fst
        = (exceptionIds mws).reverse) ∧
    (∃ k, (download (buildMethods mws) df q).2.1 = (requestIds mws).take k) ∧
    (∃ k, (download (buildMethods mws) df q).2.2.1
        = ((exceptionIds mws).reverse).take k) ∧
    (∃ k, (download (buildMethods mws) df q).2.2.2
        = ((responseIds mws).reverse).take k) := by
  obtain ⟨h1, h2, h3⟩ := foldl_add_ids (enumFrom 0 mws) ⟨[], [], []⟩
  have hb1 : (buildMethods mws).process_request.map Prod.fst = requestIds mws := by
    simpa [buildMethods, requestIds] using h1
  have hb2 : (buildMethods mws).process_response.map Prod.fst
      = (responseIds mws).reverse := by
    simpa [buildMethods, responseIds] using h2
  have hb3 : (buildMethods mws).process_exception.map Prod.fst
      = (exceptionIds mws).reverse := by
    simpa [buildMethods, exceptionIds] using h3
  refine ⟨⟨hb1, hb2, hb3⟩, ?_, ?_, ?_⟩
  all_goals
    have hreqlog : ∀ dfq : Req → Except (Exc E) Resp,
        ∃ k, (process_request (buildMethods mws) dfq q).2
          = (requestIds mws).take k := by
      intro dfq
      obtain ⟨k, hk⟩ := runRequestHooks_log_take q (buildMethods mws).process_request
      refine ⟨k, ?_⟩
      rw [← hb1, ← hk]
      cases hrr : runRequestHooks (buildMethods mws).process_request q with
      | mk res log =>
        cases res with
        | error e => simp [process_request, hrr]
        | ok o =>
          cases o with
          | none =>
            cases hdf : dfq q with
            | error e => simp [process_request, hrr, hdf]
            | ok r => simp [process_request, hrr, hdf]
          | some x => simp [process_request, hrr]
  · -- request-phase log
    obtain ⟨k, hk⟩ := hreqlog df
    refine ⟨k, ?_⟩
    rw [← hk]
    cases hpr : process_request (buildMethods mws) df q with
    | mk res log =>
      cases res with
      | error ex =>
        cases hexc : runExceptionHooks (buildMethods mws).process_exception q ex with
        | mk res2 log2 =>
          cases res2 with
          | error e2 => simp [download, hpr, hexc]
          | ok x => simp [download, hpr, hexc]
      | ok x => simp [download, hpr]
  · -- exception-phase log
    cases hpr : process_request (buildMethods mws) df q with
    | mk res log =>
      cases res with
      | error ex =>
        obtain ⟨k, hk⟩ := runExceptionHooks_log_take q ex
          (buildMethods mws).process_exception
        refine ⟨k, ?_⟩
        rw [← hb3, ← hk]
        cases hexc : runExceptionHooks (buildMethods mws).process_exception q ex with
        | mk res2 log2 =>
          cases res2 with
          | error e2 => simp [download, hpr, hexc]
          | ok x => simp [download, hpr, hexc]
      | ok x => exact ⟨0, by simp [download, hpr]⟩
  · -- response-phase log
    have hresplog : ∀ x : Resp ⊕ Req,
        ∃ k, (process_response (buildMethods mws) q x).2
          = ((responseIds mws).reverse).take k := by
      intro x
      cases x with
      | inr q2 => exact ⟨0, by simp [process_response]⟩
      | inl r =>
        obtain ⟨k, hk⟩ := runResponseHooks_log_take q
          (buildMethods mws).process_response r
        exact ⟨k, by rw [← hb2]; simpa [process_response] using hk⟩
    cases hpr : process_request (buildMethods mws) df q with
    | mk res log =>
      cases res with
      | error ex =>
        cases hexc : runExceptionHooks (buildMethods mws).process_exception q ex with
        | mk res2 log2 =>
          cases res2 with
          | error e2 => exact ⟨0, by simp [download, hpr, hexc]⟩
          | ok x =>
            obtain ⟨k, hk⟩ := hresplog x
            exact ⟨k, by rw [← hk]; simp [download, hpr, hexc]⟩
      | ok x =>
        obtain ⟨k, hk⟩ := hresplog x
        exact ⟨k, by rw [← hk]; simp [download, hpr]⟩

end Middleware

namespace Agent

theorem read_body_loop_cancels (bytesSig : Nat → List SigResult)
    (maxsize warnsize : Nat)
    (hstop : ∀ k, anyStop (bytesSig k) = false) (hm : 0 < maxsize) :
    ∀ (chunks : List (List Nat)) (k : Nat) (buf : List Nat) (received : Nat)
      (rw2 : Bool),
    (∀ c ∈ chunks, c.length ≤ 8192) →
    received ≤ maxsize →
    maxsize < received + (chunks.map List.length).sum →
    ∃ n, _read_body_loop bytesSig maxsize warnsize chunks k buf received rw2
        = ReadOutcome.cancelledTooLarge n ∧ n ≤ maxsize + 8192 := by
  intro chunks
  induction chunks with
  | nil =>
    intro k buf received rw2 _ hle hgt
    simp at hgt
    omega
  | cons c rest ih =>
    intro k buf received rw2 hlen hle hgt
    have hc : c.length ≤ 8192 := hlen c (List.mem_cons_self c rest)
    by_cases hover : maxsize < received + c.length
    · refine ⟨received + c.length, ?_, by omega⟩
      simp only [_read_body_loop, hstop k, if_false, Bool.false_eq_true]
      have hcond : maxsize ≠ 0 ∧ maxsize < received + c.length :=
        ⟨by omega, hover⟩
      simp [hcond]
    · push_neg at hover
      obtain ⟨n, hn, hbound⟩ := ih (k + 1) (buf ++ c) (received + c.length)
        (if warnsize ≠ 0 ∧ warnsize < received + c.length ∧ ¬rw2 then
          true else rw2)
        (fun d hd => hlen d (List.mem_cons_of_mem c hd)) hover
        (by simp at hgt ⊢; omega)
      refine ⟨n, ?_, hbound⟩
      rw [← hn]
      simp only [_read_body_loop, hstop k, Bool.false_eq_true, if_false]
      have hcond : ¬(maxsize ≠ 0 ∧ maxsize < received + c.length) := by
        intro hc2; omega
      simp only [hcond, if_false]

/-- Claim C4: with a positive effective max size (and no stop-download
signal interfering), (a) a declared Content-Length strictly above the max
makes `download_request` raise the cancellation before any body read — the
outcome is `cancelledExpectedTooLarge` uniformly in the stream, so no
chunk is consumed; and (b) with no declared length (or one within the
limit) but a streamed body whose total exceeds the max, `_read_body`
raises the cancellation (discarding the buffer: the outcome carries no
body) after consuming at most `maxsize` plus one 8 KiB chunk of body
bytes, and `download_request` surfaces it as `cancelledBodyTooLarge`. -/
theorem maxsize_cancellation :
    (∀ (L maxsize warnsize : Nat) (chunks : List (List Nat))
       (bytesSig : Nat → List SigResult)
       (conn : Option (Option Ip × Option Cert)),
      0 < maxsize → maxsize < L →
      download_request [] (some L) maxsize warnsize chunks bytesSig conn
        = FetchOutcome.cancelledExpectedTooLarge) ∧
    (∀ (maxsize warnsize : Nat) (contentLength : Option Nat)
       (chunks : List (List Nat)) (bytesSig : Nat → List SigResult)
       (conn : Option (Option Ip × Option Cert)),
      0 < maxsize →
      (∀ k, anyStop (bytesSig k) = false) →
      (∀ c ∈ chunks, c.length ≤ 8192) →
      expectedSize contentLength ≤ (maxsize : Int) →
      maxsize < (chunks.map List.length).sum →
      ∃ n, _read_body bytesSig maxsize warnsize chunks
          = ReadOutcome.cancelledTooLarge n ∧ n ≤ maxsize + 8192 ∧
        download_request [] contentLength maxsize warnsize chunks bytesSig conn
          = FetchOutcome.cancelledBodyTooLarge) := by
  constructor
  · intro L maxsize warnsize chunks bytesSig conn hm hL
    have hexp : expectedSize (some L) = (L : Int) := by
      simp [expectedSize]
      omega
    have hcond : maxsize ≠ 0 ∧ (maxsize : Int) < expectedSize (some L) := by
      rw [hexp]
      constructor
      · omega
      · exact_mod_cast hL
    simp [download_request, anyStop, hcond]
  · intro maxsize warnsize contentLength chunks bytesSig conn hm hstop hlen
      hexp hbody
    obtain ⟨n, hn, hbound⟩ := read_body_loop_cancels bytesSig maxsize warnsize
      hstop hm chunks 0 [] 0 false hlen (by omega) (by omega)
    refine ⟨n, hn, hbound, ?_⟩
    have hcond : ¬(maxsize ≠ 0 ∧ (maxsize : Int) < expectedSize contentLength) := by
      intro hc
      omega
    simp [download_request, anyStop, hcond, _read_body, hn]

/-- Witness for C4, exercising both conjuncts: a declared length of 100
against a max of 10 cancels up front; an undeclared length with two
3-byte chunks against a max of 5 cancels mid-stream within the byte
bound. -/
theorem maxsize_cancellation_witness :
    download_request [] (some 100) 10 0 [[1]] (fun _ => []) Option.none
      = FetchOutcome.cancelledExpectedTooLarge ∧
    ∃ n, _read_body (fun _ => []) 5 0 [[1, 2, 3], [4, 5, 6]]
        = ReadOutcome.cancelledTooLarge n ∧ n ≤ 5 + 8192 ∧
      download_request [] Option.none 5 0 [[1, 2, 3], [4, 5, 6]] (fun _ => [])
        Option.none
      = FetchOutcome.cancelledBodyTooLarge :=
  ⟨maxsize_cancellation.1 100 10 0 [[1]] (fun _ => []) Option.none
     (by decide) (by decide),
   maxsize_cancellation.2 5 0 Option.none [[1, 2, 3], [4, 5, 6]]
     (fun _ => []) Option.none (by decide) (fun _ => rfl) (by decide)
     (by decide) (by decide)⟩

end Agent

namespace Media

variable {FP FI E : Type} [DecidableEq FP]

theorem lookupD_append (fp : FP) (d e : List (FP × FetchResult FI E)) :
    lookupD fp (d ++ e) =
      match lookupD fp d with
      | some r => some r
      | Option.none => lookupD fp e := by
  induction d with
  | nil => simp [lookupD]
  | cons p rest ih =>
    obtain ⟨fp2, r⟩ := p
    by_cases h : fp2 = fp
    · simp [lookupD, h]
    · simp [lookupD, h, ih]

theorem lookupD_append_some {fp : FP} {d : List (FP × FetchResult FI E)}
    {r : FetchResult FI E} (e : List (FP × FetchResult FI E))
    (h : lookupD fp d = some r) : lookupD fp (d ++ e) = some r := by
  rw [lookupD_append, h]

theorem lookupD_append_none {fp : FP} {d : List (FP × FetchResult FI E)}
    (e : List (FP × FetchResult FI E)) (h : lookupD fp d = Option.none) :
    lookupD fp (d ++ e) = lookupD fp e := by
  rw [lookupD_append, h]

theorem lookupD_singleton (fp fp2 : FP) (r : FetchResult FI E) :
    lookupD fp [(fp2, r)] = if fp2 = fp then some r else Option.none := by
  simp [lookupD]

theorem runActs_reaches {s s2 : CoordState FP FI E}
    (acts : List (Act FP FI E)) (h : runActs s acts = some s2) :
    Reaches s s2 := by
  induction acts generalizing s with
  | nil =>
    simp [runActs] at h
    subst h
    exact Relation.ReflTransGen.refl
  | cons a as ih =>
    simp only [runActs] at h
    cases ha : applyAct s a with
    | none => rw [ha] at h; simp at h
    | some s1 =>
      rw [ha] at h
      simp only at h
      exact Relation.ReflTransGen.head ⟨a, ha⟩ (ih h)

theorem getElem?_set_of_get {α : Type} {l : List α} {i : Nat} {c : α}
    (h : l[i]? = some c) (a : α) (j : Nat) :
    (l.set i a)[j]? = if i = j then some a else l[j]? := by
  have hlt : i < l.length := by
    by_contra hge
    push_neg at hge
    rw [List.getElem?_eq_none hge] at h
    exact Option.noConfusion h
  rw [List.getElem?_set]
  by_cases hij : i = j
  · simp [hij, hij ▸ hlt]
  · simp [hij]

/-- Elimination principle for one scheduler step: any step is one of the
six atomic-section shapes (cached-branch entry, waiter registration,
leader registration, cached-branch read, completion, scheduled delivery),
with its enabling conditions and its exact effect on the state. -/
theorem stepRel_elim {s s2 : CoordState FP FI E} (h : StepRel s s2) :
    (∃ i c, s.callers[i]? = some c ∧ c.pc = PC.entry ∧
      (lookupD c.fp s.downloaded).isSome ∧
      s2 = { s with callers := s.callers.set i { c with pc := PC.cachedPause } }) ∨
    (∃ i c, s.callers[i]? = some c ∧ c.pc = PC.entry ∧
      lookupD c.fp s.downloaded = Option.none ∧ c.fp ∈ s.downloading ∧
      s2 = { s with
             waiting := s.waiting ++ [(c.fp, i)]
             callers := s.callers.set i { c with pc := PC.waitingFut } }) ∨
    (∃ i c, s.callers[i]? = some c ∧ c.pc = PC.entry ∧
      lookupD c.fp s.downloaded = Option.none ∧ c.fp ∉ s.downloading ∧
      s2 = { s with
             waiting := s.waiting ++ [(c.fp, i)]
             downloading := s.downloading ++ [c.fp]
             fetchLog := s.fetchLog ++ [(i, c.fp)]
             callers := s.callers.set i { c with pc := PC.fetching } }) ∨
    (∃ i c r, s.callers[i]? = some c ∧ c.pc = PC.cachedPause ∧
      lookupD c.fp s.downloaded = some r ∧
      s2 = { s with
             callers := s.callers.set i
               { c with pc := PC.done, outcome := some r } }) ∨
    (∃ i c r, s.callers[i]? = some c ∧ c.pc = PC.fetching ∧
      s2 = { s with
             downloading := s.downloading.erase c.fp
             downloaded := s.downloaded ++ [(c.fp, r)]
             waiting := s.waiting.filter fun p => p.1 ≠ c.fp
             pending := s.pending ++
               ((s.waiting.filter fun p => p.1 = c.fp).map fun p => (p.2, r))
             callers := s.callers.set i { c with pc := PC.waitingFut } }) ∨
    (∃ j r rest c, s.pending = (j, r) :: rest ∧ s.callers[j]? = some c ∧
      s2 = { s with
             pending := rest
             callers := s.callers.set j
               { c with pc := PC.done, outcome := some r } }) := by
  obtain ⟨a, ha⟩ := h
  cases a with
  | arrive i =>
    simp only [applyAct] at ha
    cases hc : s.callers[i]? with
    | none => rw [hc] at ha; exact Option.noConfusion ha
    | some c =>
      rw [hc] at ha
      simp only at ha
      by_cases hpc : c.pc = PC.entry
      · rw [if_neg (by simp [hpc])] at ha
        by_cases hdl : (lookupD c.fp s.downloaded).isSome
        · rw [if_pos hdl] at ha
          left
          exact ⟨i, c, hc, hpc, hdl, (Option.some.injEq _ _ ▸ ha).symm⟩
        · rw [if_neg hdl] at ha
          have hnone : lookupD c.fp s.downloaded = Option.none :=
            Option.not_isSome_iff_eq_none.mp hdl
          by_cases hmem : c.fp ∈ s.downloading
          · rw [if_pos hmem] at ha
            right; left
            exact ⟨i, c, hc, hpc, hnone, hmem, (Option.some.injEq _ _ ▸ ha).symm⟩
          · rw [if_neg hmem] at ha
            right; right; left
            exact ⟨i, c, hc, hpc, hnone, hmem, (Option.some.injEq _ _ ▸ ha).symm⟩
      · rw [if_pos (by simp [hpc])] at ha
        exact Option.noConfusion ha
  | readCache i =>
    simp only [applyAct] at ha
    cases hc : s.callers[i]? with
    | none => rw [hc] at ha; exact Option.noConfusion ha
    | some c =>
      rw [hc] at ha
      simp only at ha
      by_cases hpc : c.pc = PC.cachedPause
      · rw [if_neg (by simp [hpc])] at ha
        cases hdl : lookupD c.fp s.downloaded with
        | none => rw [hdl] at ha; exact Option.noConfusion ha
        | some r =>
          rw [hdl] at ha
          simp only at ha
          right; right; right; left
          exact ⟨i, c, r, hc, hpc, hdl, (Option.some.injEq _ _ ▸ ha).symm⟩
      · rw [if_pos (by simp [hpc])] at ha
        exact Option.noConfusion ha
  | complete i r =>
    simp only [applyAct] at ha
    cases hc : s.callers[i]? with
    | none => rw [hc] at ha; exact Option.noConfusion ha
    | some c =>
      rw [hc] at ha
      simp only at ha
      by_cases hpc : c.pc = PC.fetching
      · rw [if_neg (by simp [hpc])] at ha
        right; right; right; right; left
        exact ⟨i, c, r, hc, hpc, (Option.some.injEq _ _ ▸ ha).symm⟩
      · rw [if_pos (by simp [hpc])] at ha
        exact Option.noConfusion ha
  | deliver =>
    simp only [applyAct] at ha
    cases hp : s.pending with
    | nil => rw [hp] at ha; exact Option.noConfusion ha
    | cons pr rest =>
      obtain ⟨j, r⟩ := pr
      rw [hp] at ha
      simp only at ha
      cases hc : s.callers[j]? with
      | none => rw [hc] at ha; exact Option.noConfusion ha
      | some c =>
        rw [hc] at ha
        simp only at ha
        right; right; right; right; right
        exact ⟨j, r, rest, c, rfl, hc, (Option.some.injEq _ _ ▸ ha).symm⟩

theorem get_set_self {l : List (Caller FP FI E)} {i : Nat}
    {c : Caller FP FI E} (hc : l[i]? = some c) (c2 : Caller FP FI E) :
    (l.set i c2)[i]? = some c2 := by
  rw [getElem?_set_of_get hc]
  simp

theorem get_set_other {l : List (Caller FP FI E)} {i j : Nat}
    (c2 : Caller FP FI E) (h : i ≠ j) : (l.set i c2)[j]? = l[j]? :=
  List.getElem?_set_ne h

theorem get_set_elim {l : List (Caller FP FI E)} {i : Nat}
    {c c2 cj : Caller FP FI E} {j : Nat} (hc : l[i]? = some c)
    (h : (l.set i c2)[j]? = some cj) :
    (j = i ∧ cj = c2) ∨ (j ≠ i ∧ l[j]? = some cj) := by
  rw [getElem?_set_of_get hc] at h
  by_cases hij : i = j
  · rw [if_pos hij] at h
    exact Or.inl ⟨hij.symm, (Option.some.injEq _ _ ▸ h).symm⟩
  · rw [if_neg hij] at h
    exact Or.inr ⟨fun hji => hij hji.symm, h⟩

theorem nodup_concat_of_not_mem {l : List FP} {a : FP} (h : l.Nodup)
    (ha : a ∉ l) : (l ++ [a]).Nodup := by
  simp only [List.nodup_append]
  exact ⟨h, List.nodup_singleton a, by
    intro x hx hxa
    simp at hxa
    subst hxa
    exact ha hx⟩

theorem lookupD_snoc_self {fp : FP} {d : List (FP × FetchResult FI E)}
    (r : FetchResult FI E) (h : lookupD fp d = Option.none) :
    lookupD fp (d ++ [(fp, r)]) = some r := by
  rw [lookupD_append_none _ h, lookupD_singleton]
  simp

theorem lookupD_snoc_ne {fp fp0 : FP} (d : List (FP × FetchResult FI E))
    (r : FetchResult FI E) (h : fp0 ≠ fp) :
    lookupD fp (d ++ [(fp0, r)]) = lookupD fp d := by
  rw [lookupD_append]
  cases hd : lookupD fp d with
  | some r2 => rfl
  | none => simp [lookupD_singleton, h]

theorem inv_init (fps : List FP) : Inv (initState FP FI E fps) := by
  have hget : ∀ (i : Nat) (c : Caller FP FI E),
      (initState FP FI E fps).callers[i]? = some c →
      c.pc = PC.entry ∧ c.outcome = Option.none := by
    intro i c hc
    simp only [initState, List.getElem?_map] at hc
    rw [Option.map_eq_some'] at hc
    obtain ⟨fp, _, hfc⟩ := hc
    rw [← hfc]
    exact ⟨rfl, rfl⟩
  constructor
  · simp [initState]
  · intro fp hfp
    simp [initState] at hfp
  · intro fp
    simp [initState, fetchCount, lookupD]
  · intro i c hc hpc
    rw [(hget i c hc).1] at hpc
    exact PC.noConfusion hpc
  · intro i j ci cj hci hcj hpci hpcj hfp
    rw [(hget i ci hci).1] at hpci
    exact PC.noConfusion hpci
  · intro i c hc hpc
    rw [(hget i c hc).1] at hpc
    exact PC.noConfusion hpc
  · intro i c r hc hout
    rw [(hget i c hc).2] at hout
    exact Option.noConfusion hout
  · intro j r hj
    simp [initState] at hj
  · intro i c hc hpc
    rw [(hget i c hc).1] at hpc
    exact PC.noConfusion hpc
  · intro fp j hw
    simp [initState] at hw
  · intro fp j hw
    simp [initState] at hw

theorem inv_step {s s2 : CoordState FP FI E} (h : StepRel s s2) (hI : Inv s) :
    Inv s2 := by
  rcases stepRel_elim h with
    ⟨i, c, hc, hpc, hdl, rfl⟩ | ⟨i, c, hc, hpc, hnone, hmem, rfl⟩ |
    ⟨i, c, hc, hpc, hnone, hnmem, rfl⟩ | ⟨i, c, r, hc, hpc, hdl, rfl⟩ |
    ⟨i, c, r, hc, hpc, rfl⟩ | ⟨j0, r, rest, c, hp, hc, rfl⟩
  · -- cached-branch entry: only caller i's pc changes, to cachedPause
    refine ⟨hI.nodupDl, hI.excl, hI.fetch_iff, ?_, ?_, ?_, ?_, ?_, ?_,
      hI.wait_dl, ?_⟩
    · intro j cj hcj hpcj
      rcases get_set_elim hc hcj with ⟨rfl, rfl⟩ | ⟨hne, hold⟩
      · exact PC.noConfusion hpcj
      · exact hI.fetching_dl j cj hold hpcj
    · intro j k cj ck hcj hck hpcj hpck hfp
      rcases get_set_elim hc hcj with ⟨rfl, rfl⟩ | ⟨hnej, holdj⟩
      · exact PC.noConfusion hpcj
      · rcases get_set_elim hc hck with ⟨rfl, rfl⟩ | ⟨hnek, holdk⟩
        · exact PC.noConfusion hpck
        · exact hI.fetching_uniq j k cj ck holdj holdk hpcj hpck hfp
    · intro j cj hcj hpcj
      rcases get_set_elim hc hcj with ⟨rfl, rfl⟩ | ⟨hne, hold⟩
      · exact hdl
      · exact hI.cachedp j cj hold hpcj
    · intro j cj r2 hcj hout
      rcases get_set_elim hc hcj with ⟨rfl, rfl⟩ | ⟨hne, hold⟩
      · exact hI.outc j c r2 hc hout
      · exact hI.outc j cj r2 hold hout
    · intro j r2 hjr
      obtain ⟨cj, hcj, hlk⟩ := hI.pend j r2 hjr
      by_cases hji : j = i
      · subst hji
        rw [hc] at hcj
        have hceq := Option.some.inj hcj
        subst hceq
        exact ⟨{ c with pc := PC.cachedPause }, get_set_self hc _, hlk⟩
      · exact ⟨cj, by
          rw [get_set_other _ fun hij => hji hij.symm]; exact hcj, hlk⟩
    · intro j cj hcj hpcj
      rcases get_set_elim hc hcj with ⟨rfl, rfl⟩ | ⟨hne, hold⟩
      · exact PC.noConfusion hpcj
      · exact hI.done_out j cj hold hpcj
    · intro fp j hw
      obtain ⟨cj, hcj, hfp⟩ := hI.wait_fp fp j hw
      by_cases hji : j = i
      · subst hji
        rw [hc] at hcj
        have hceq := Option.some.inj hcj
        subst hceq
        exact ⟨{ c with pc := PC.cachedPause }, get_set_self hc _, hfp⟩
      · exact ⟨cj, by
          rw [get_set_other _ fun hij => hji hij.symm]; exact hcj, hfp⟩
  · -- waiter registration: a waiting slot is appended, caller i awaits
    refine ⟨hI.nodupDl, hI.excl, hI.fetch_iff, ?_, ?_, ?_, ?_, ?_, ?_, ?_, ?_⟩
    · intro j cj hcj hpcj
      rcases get_set_elim hc hcj with ⟨rfl, rfl⟩ | ⟨hne, hold⟩
      · exact PC.noConfusion hpcj
      · exact hI.fetching_dl j cj hold hpcj
    · intro j k cj ck hcj hck hpcj hpck hfp
      rcases get_set_elim hc hcj with ⟨rfl, rfl⟩ | ⟨hnej, holdj⟩
      · exact PC.noConfusion hpcj
      · rcases get_set_elim hc hck with ⟨rfl, rfl⟩ | ⟨hnek, holdk⟩
        · exact PC.noConfusion hpck
        · exact hI.fetching_uniq j k cj ck holdj holdk hpcj hpck hfp
    · intro j cj hcj hpcj
      rcases get_set_elim hc hcj with ⟨rfl, rfl⟩ | ⟨hne, hold⟩
      · exact PC.noConfusion hpcj
      · exact hI.cachedp j cj hold hpcj
    · intro j cj r2 hcj hout
      rcases get_set_elim hc hcj with ⟨rfl, rfl⟩ | ⟨hne, hold⟩
      · exact hI.outc j c r2 hc hout
      · exact hI.outc j cj r2 hold hout
    · intro j r2 hjr
      obtain ⟨cj, hcj, hlk⟩ := hI.pend j r2 hjr
      by_cases hji : j = i
      · subst hji
        rw [hc] at hcj
        have hceq := Option.some.inj hcj
        subst hceq
        exact ⟨{ c with pc := PC.waitingFut }, get_set_self hc _, hlk⟩
      · exact ⟨cj, by
          rw [get_set_other _ fun hij => hji hij.symm]; exact hcj, hlk⟩
    · intro j cj hcj hpcj
      rcases get_set_elim hc hcj with ⟨rfl, rfl⟩ | ⟨hne, hold⟩
      · exact PC.noConfusion hpcj
      · exact hI.done_out j cj hold hpcj
    · intro fp j hw
      rcases List.mem_append.mp hw with h2 | h2
      · exact hI.wait_dl fp j h2
      · simp at h2
        obtain ⟨rfl, rfl⟩ := h2
        exact hmem
    · intro fp j hw
      rcases List.mem_append.mp hw with h2 | h2
      · obtain ⟨cj, hcj, hfp⟩ := hI.wait_fp fp j h2
        by_cases hji : j = i
        · subst hji
          rw [hc] at hcj
          have hceq := Option.some.inj hcj
          subst hceq
          exact ⟨{ c with pc := PC.waitingFut }, get_set_self hc _, hfp⟩
        · exact ⟨cj, by
            rw [get_set_other _ fun hij => hji hij.symm]; exact hcj, hfp⟩
      · simp at h2
        obtain ⟨rfl, rfl⟩ := h2
        exact ⟨{ c with pc := PC.waitingFut }, get_set_self hc _, rfl⟩
  · -- leader registration: fp starts downloading, the download chain starts
    refine ⟨nodup_concat_of_not_mem hI.nodupDl hnmem, ?_, ?_, ?_, ?_, ?_, ?_,
      ?_, ?_, ?_, ?_⟩
    · intro fp hfp
      rcases List.mem_append.mp hfp with h2 | h2
      · exact hI.excl fp h2
      · simp at h2
        subst h2
        exact hnone
    · intro fp
      have hold := hI.fetch_iff fp
      by_cases hfp : c.fp = fp
      · subst hfp
        have h0 : fetchCount c.fp s = 0 := by
          rw [hold, if_neg]
          intro hcon
          rcases hcon with h2 | h2
          · exact hnmem h2
          · rw [hnone] at h2
            exact Option.noConfusion (Option.isSome_iff_exists.mp h2).choose_spec
        have hstep : fetchCount c.fp
            { s with
              waiting := s.waiting ++ [(c.fp, i)]
              downloading := s.downloading ++ [c.fp]
              fetchLog := s.fetchLog ++ [(i, c.fp)]
              callers := s.callers.set i { c with pc := PC.fetching } }
            = fetchCount c.fp s + 1 := by
          simp [fetchCount, List.filter_append]
        rw [hstep, h0, if_pos]
        exact Or.inl (List.mem_append_right _ (by simp))
      · have hstep : fetchCount fp
            { s with
              waiting := s.waiting ++ [(c.fp, i)]
              downloading := s.downloading ++ [c.fp]
              fetchLog := s.fetchLog ++ [(i, c.fp)]
              callers := s.callers.set i { c with pc := PC.fetching } }
            = fetchCount fp s := by
          simp [fetchCount, List.filter_append, hfp]
        rw [hstep, hold]
        by_cases hcond : fp ∈ s.downloading ∨ (lookupD fp s.downloaded).isSome
        · rw [if_pos hcond, if_pos]
          rcases hcond with h2 | h2
          · exact Or.inl (List.mem_append_left _ h2)
          · exact Or.inr h2
        · rw [if_neg hcond, if_neg]
          intro hcon
          rcases hcon with h2 | h2
          · rcases List.mem_append.mp h2 with h3 | h3
            · exact hcond (Or.inl h3)
            · simp at h3
              exact hfp h3.symm
          · exact hcond (Or.inr h2)
    · intro j cj hcj hpcj
      rcases get_set_elim hc hcj with ⟨rfl, rfl⟩ | ⟨hne, hold⟩
      · exact List.mem_append_right _ (by simp)
      · exact List.mem_append_left _ (hI.fetching_dl j cj hold hpcj)
    · intro j k cj ck hcj hck hpcj hpck hfp
      rcases get_set_elim hc hcj with ⟨rfl, rfl⟩ | ⟨hnej, holdj⟩
      · rcases get_set_elim hc hck with ⟨rfl, rfl⟩ | ⟨hnek, holdk⟩
        · rfl
        · exfalso
          apply hnmem
          have h2 := hI.fetching_dl k ck holdk hpck
          rw [← hfp] at h2
          exact h2
      · rcases get_set_elim hc hck with ⟨rfl, rfl⟩ | ⟨hnek, holdk⟩
        · exfalso
          apply hnmem
          have h2 := hI.fetching_dl j cj holdj hpcj
          rw [hfp] at h2
          exact h2
        · exact hI.fetching_uniq j k cj ck holdj holdk hpcj hpck hfp
    · intro j cj hcj hpcj
      rcases get_set_elim hc hcj with ⟨rfl, rfl⟩ | ⟨hne, hold⟩
      · exact PC.noConfusion hpcj
      · exact hI.cachedp j cj hold hpcj
    · intro j cj r2 hcj hout
      rcases get_set_elim hc hcj with ⟨rfl, rfl⟩ | ⟨hne, hold⟩
      · exact hI.outc j c r2 hc hout
      · exact hI.outc j cj r2 hold hout
    · intro j r2 hjr
      obtain ⟨cj, hcj, hlk⟩ := hI.pend j r2 hjr
      by_cases hji : j = i
      · subst hji
        rw [hc] at hcj
        have hceq := Option.some.inj hcj
        subst hceq
        exact ⟨{ c with pc := PC.fetching }, get_set_self hc _, hlk⟩
      · exact ⟨cj, by
          rw [get_set_other _ fun hij => hji hij.symm]; exact hcj, hlk⟩
    · intro j cj hcj hpcj
      rcases get_set_elim hc hcj with ⟨rfl, rfl⟩ | ⟨hne, hold⟩
      · exact PC.noConfusion hpcj
      · exact hI.done_out j cj hold hpcj
    · intro fp j hw
      rcases List.mem_append.mp hw with h2 | h2
      · exact List.mem_append_left _ (hI.wait_dl fp j h2)
      · simp at h2
        obtain ⟨rfl, rfl⟩ := h2
        exact List.mem_append_right _ (by simp)
    · intro fp j hw
      rcases List.mem_append.mp hw with h2 | h2
      · obtain ⟨cj, hcj, hfp⟩ := hI.wait_fp fp j h2
        by_cases hji : j = i
        · subst hji
          rw [hc] at hcj
          have hceq := Option.some.inj hcj
          subst hceq
          exact ⟨{ c with pc := PC.fetching }, get_set_self hc _, hfp⟩
        · exact ⟨cj, by
            rw [get_set_other _ fun hij => hji hij.symm]; exact hcj, hfp⟩
      · simp at h2
        obtain ⟨rfl, rfl⟩ := h2
        exact ⟨{ c with pc := PC.fetching }, get_set_self hc _, rfl⟩
  · -- cached-branch read: caller i resolves with the cached result
    refine ⟨hI.nodupDl, hI.excl, hI.fetch_iff, ?_, ?_, ?_, ?_, ?_, ?_,
      hI.wait_dl, ?_⟩
    · intro j cj hcj hpcj
      rcases get_set_elim hc hcj with ⟨rfl, rfl⟩ | ⟨hne, hold⟩
      · exact PC.noConfusion hpcj
      · exact hI.fetching_dl j cj hold hpcj
    · intro j k cj ck hcj hck hpcj hpck hfp
      rcases get_set_elim hc hcj with ⟨rfl, rfl⟩ | ⟨hnej, holdj⟩
      · exact PC.noConfusion hpcj
      · rcases get_set_elim hc hck with ⟨rfl, rfl⟩ | ⟨hnek, holdk⟩
        · exact PC.noConfusion hpck
        · exact hI.fetching_uniq j k cj ck holdj holdk hpcj hpck hfp
    · intro j cj hcj hpcj
      rcases get_set_elim hc hcj with ⟨rfl, rfl⟩ | ⟨hne, hold⟩
      · exact PC.noConfusion hpcj
      · exact hI.cachedp j cj hold hpcj
    · intro j cj r2 hcj hout
      rcases get_set_elim hc hcj with ⟨rfl, rfl⟩ | ⟨hne, hold⟩
      · have hr := Option.some.inj hout
        rw [← hr]
        exact hdl
      · exact hI.outc j cj r2 hold hout
    · intro j r2 hjr
      obtain ⟨cj, hcj, hlk⟩ := hI.pend j r2 hjr
      by_cases hji : j = i
      · subst hji
        rw [hc] at hcj
        have hceq := Option.some.inj hcj
        subst hceq
        exact ⟨{ c with pc := PC.done, outcome := some r }, get_set_self hc _,
          hlk⟩
      · exact ⟨cj, by
          rw [get_set_other _ fun hij => hji hij.symm]; exact hcj, hlk⟩
    · intro j cj hcj hpcj
      rcases get_set_elim hc hcj with ⟨rfl, rfl⟩ | ⟨hne, hold⟩
      · rfl
      · exact hI.done_out j cj hold hpcj
    · intro fp j hw
      obtain ⟨cj, hcj, hfp⟩ := hI.wait_fp fp j hw
      by_cases hji : j = i
      · subst hji
        rw [hc] at hcj
        have hceq := Option.some.inj hcj
        subst hceq
        exact ⟨{ c with pc := PC.done, outcome := some r }, get_set_self hc _,
          hfp⟩
      · exact ⟨cj, by
          rw [get_set_other _ fun hij => hji hij.symm]; exact hcj, hfp⟩
  · -- completion: fp moves from downloading into the cache, waiters scheduled
    have hfpdl : c.fp ∈ s.downloading := hI.fetching_dl i c hc hpc
    have hnone : lookupD c.fp s.downloaded = Option.none := hI.excl c.fp hfpdl
    have hlknew : lookupD c.fp (s.downloaded ++ [(c.fp, r)]) = some r :=
      lookupD_snoc_self r hnone
    refine ⟨hI.nodupDl.erase c.fp, ?_, ?_, ?_, ?_, ?_, ?_, ?_, ?_, ?_, ?_⟩
    · intro fp hfp
      obtain ⟨hne, hmem2⟩ := (List.Nodup.mem_erase_iff hI.nodupDl).mp hfp
      rw [lookupD_snoc_ne _ _ (Ne.symm hne)]
      exact hI.excl fp hmem2
    · intro fp
      have hold := hI.fetch_iff fp
      by_cases hfp : c.fp = fp
      · subst hfp
        rw [show fetchCount c.fp
            { s with
              downloading := s.downloading.erase c.fp
              downloaded := s.downloaded ++ [(c.fp, r)]
              waiting := s.waiting.filter fun p => p.1 ≠ c.fp
              pending := s.pending ++
                ((s.waiting.filter fun p => p.1 = c.fp).map fun p => (p.2, r))
              callers := s.callers.set i { c with pc := PC.waitingFut } }
            = fetchCount c.fp s from rfl, hold,
          if_pos (Or.inl hfpdl), if_pos (Or.inr (by rw [hlknew]; rfl))]
      · have hval : lookupD fp (s.downloaded ++ [(c.fp, r)])
            = lookupD fp s.downloaded := lookupD_snoc_ne _ _ hfp
        rw [show fetchCount fp
            { s with
              downloading := s.downloading.erase c.fp
              downloaded := s.downloaded ++ [(c.fp, r)]
              waiting := s.waiting.filter fun p => p.1 ≠ c.fp
              pending := s.pending ++
                ((s.waiting.filter fun p => p.1 = c.fp).map fun p => (p.2, r))
              callers := s.callers.set i { c with pc := PC.waitingFut } }
            = fetchCount fp s from rfl, hold]
        have hmemiff : fp ∈ s.downloading.erase c.fp ↔ fp ∈ s.downloading := by
          rw [List.Nodup.mem_erase_iff hI.nodupDl]
          constructor
          · exact fun h2 => h2.2
          · exact fun h2 => ⟨fun he => hfp he.symm, h2⟩
        by_cases hcond : fp ∈ s.downloading ∨ (lookupD fp s.downloaded).isSome
        · rw [if_pos hcond, if_pos]
          rcases hcond with h2 | h2
          · exact Or.inl (hmemiff.mpr h2)
          · exact Or.inr (by rw [hval]; exact h2)
        · rw [if_neg hcond, if_neg]
          intro hcon
          rcases hcon with h2 | h2
          · exact hcond (Or.inl (hmemiff.mp h2))
          · rw [hval] at h2
            exact hcond (Or.inr h2)
    · intro j cj hcj hpcj
      rcases get_set_elim hc hcj with ⟨rfl, rfl⟩ | ⟨hne, hold⟩
      · exact PC.noConfusion hpcj
      · have h2 := hI.fetching_dl j cj hold hpcj
        rw [List.Nodup.mem_erase_iff hI.nodupDl]
        refine ⟨?_, h2⟩
        intro heq
        exact hne (hI.fetching_uniq j i cj c hold hc hpcj hpc heq)
    · intro j k cj ck hcj hck hpcj hpck hfp2
      rcases get_set_elim hc hcj with ⟨rfl, rfl⟩ | ⟨hnej, holdj⟩
      · exact PC.noConfusion hpcj
      · rcases get_set_elim hc hck with ⟨rfl, rfl⟩ | ⟨hnek, holdk⟩
        · exact PC.noConfusion hpck
        · exact hI.fetching_uniq j k cj ck holdj holdk hpcj hpck hfp2
    · intro j cj hcj hpcj
      rcases get_set_elim hc hcj with ⟨rfl, rfl⟩ | ⟨hne, hold⟩
      · exact PC.noConfusion hpcj
      · have h2 := hI.cachedp j cj hold hpcj
        obtain ⟨r2, hr2⟩ := Option.isSome_iff_exists.mp h2
        rw [lookupD_append_some _ hr2]
        rfl
    · intro j cj r2 hcj hout
      rcases get_set_elim hc hcj with ⟨rfl, rfl⟩ | ⟨hne, hold⟩
      · exact lookupD_append_some _ (hI.outc j c r2 hc hout)
      · exact lookupD_append_some _ (hI.outc j cj r2 hold hout)
    · intro j r2 hjr
      rcases List.mem_append.mp hjr with h2 | h2
      · obtain ⟨cj, hcj, hlk⟩ := hI.pend j r2 h2
        by_cases hji : j = i
        · subst hji
          rw [hc] at hcj
          have hceq := Option.some.inj hcj
          subst hceq
          exact ⟨{ c with pc := PC.waitingFut }, get_set_self hc _,
            lookupD_append_some _ hlk⟩
        · exact ⟨cj, by
            rw [get_set_other _ fun hij => hji hij.symm]; exact hcj,
            lookupD_append_some _ hlk⟩
      · rw [List.mem_map] at h2
        obtain ⟨p, hpmem, hpe⟩ := h2
        obtain ⟨pf, pj⟩ := p
        rw [List.mem_filter] at hpmem
        obtain ⟨hpw, hpeq⟩ := hpmem
        have hpfp : pf = c.fp := by simpa using hpeq
        injection hpe with hj hr2
        subst hj
        subst hr2
        subst hpfp
        obtain ⟨cj, hcj, hfpj⟩ := hI.wait_fp c.fp pj hpw
        by_cases hji : pj = i
        · subst hji
          rw [hc] at hcj
          have hceq := Option.some.inj hcj
          subst hceq
          exact ⟨{ c with pc := PC.waitingFut }, get_set_self hc _, hlknew⟩
        · refine ⟨cj, by
            rw [get_set_other _ fun hij => hji hij.symm]; exact hcj, ?_⟩
          rw [hfpj]
          exact hlknew
    · intro j cj hcj hpcj
      rcases get_set_elim hc hcj with ⟨rfl, rfl⟩ | ⟨hne, hold⟩
      · exact PC.noConfusion hpcj
      · exact hI.done_out j cj hold hpcj
    · intro fp j hw
      rw [List.mem_filter] at hw
      obtain ⟨hmem2, hne⟩ := hw
      have hne2 : fp ≠ c.fp := by simpa using hne
      rw [List.Nodup.mem_erase_iff hI.nodupDl]
      exact ⟨hne2, hI.wait_dl fp j hmem2⟩
    · intro fp j hw
      rw [List.mem_filter] at hw
      obtain ⟨hmem2, _⟩ := hw
      obtain ⟨cj, hcj, hfpj⟩ := hI.wait_fp fp j hmem2
      by_cases hji : j = i
      · subst hji
        rw [hc] at hcj
        have hceq := Option.some.inj hcj
        subst hceq
        exact ⟨{ c with pc := PC.waitingFut }, get_set_self hc _, hfpj⟩
      · exact ⟨cj, by
          rw [get_set_other _ fun hij => hji hij.symm]; exact hcj, hfpj⟩
  · -- delivery: the head of the scheduled queue resolves its future
    have hmemp : (j0, r) ∈ s.pending := by
      rw [hp]
      exact List.mem_cons_self _ _
    obtain ⟨c2, hc2, hlkc⟩ := hI.pend j0 r hmemp
    rw [hc] at hc2
    have hceq := Option.some.inj hc2
    subst hceq
    refine ⟨hI.nodupDl, hI.excl, hI.fetch_iff, ?_, ?_, ?_, ?_, ?_, ?_,
      hI.wait_dl, ?_⟩
    · intro j cj hcj hpcj
      rcases get_set_elim hc hcj with ⟨rfl, rfl⟩ | ⟨hne, hold⟩
      · exact PC.noConfusion hpcj
      · exact hI.fetching_dl j cj hold hpcj
    · intro j k cj ck hcj hck hpcj hpck hfp
      rcases get_set_elim hc hcj with ⟨rfl, rfl⟩ | ⟨hnej, holdj⟩
      · exact PC.noConfusion hpcj
      · rcases get_set_elim hc hck with ⟨rfl, rfl⟩ | ⟨hnek, holdk⟩
        · exact PC.noConfusion hpck
        · exact hI.fetching_uniq j k cj ck holdj holdk hpcj hpck hfp
    · intro j cj hcj hpcj
      rcases get_set_elim hc hcj with ⟨rfl, rfl⟩ | ⟨hne, hold⟩
      · exact PC.noConfusion hpcj
      · exact hI.cachedp j cj hold hpcj
    · intro j cj r2 hcj hout
      rcases get_set_elim hc hcj with ⟨rfl, rfl⟩ | ⟨hne, hold⟩
      · have hr := Option.some.inj hout
        rw [← hr]
        exact hlkc
      · exact hI.outc j cj r2 hold hout
    · intro j r2 hjr
      have hjr2 : (j, r2) ∈ s.pending := by
        rw [hp]
        exact List.mem_cons_of_mem _ hjr
      obtain ⟨cj, hcj, hlk⟩ := hI.pend j r2 hjr2
      by_cases hji : j = j0
      · subst hji
        rw [hc] at hcj
        have hceq2 := Option.some.inj hcj
        subst hceq2
        exact ⟨{ c with pc := PC.done, outcome := some r }, get_set_self hc _,
          hlk⟩
      · exact ⟨cj, by
          rw [get_set_other _ fun hij => hji hij.symm]; exact hcj, hlk⟩
    · intro j cj hcj hpcj
      rcases get_set_elim hc hcj with ⟨rfl, rfl⟩ | ⟨hne, hold⟩
      · rfl
      · exact hI.done_out j cj hold hpcj
    · intro fp j hw
      obtain ⟨cj, hcj, hfpj⟩ := hI.wait_fp fp j hw
      by_cases hji : j = j0
      · subst hji
        rw [hc] at hcj
        have hceq2 := Option.some.inj hcj
        subst hceq2
        exact ⟨{ c with pc := PC.done, outcome := some r }, get_set_self hc _,
          hfpj⟩
      · exact ⟨cj, by
          rw [get_set_other _ fun hij => hji hij.symm]; exact hcj, hfpj⟩

theorem inv_reach {s s2 : CoordState FP FI E} (h : Reaches s s2) (hI : Inv s) :
    Inv s2 := by
  induction h with
  | refl => exact hI
  | tail _ h2 ih => exact inv_step h2 ih

theorem downloaded_mono_step {s s2 : CoordState FP FI E} (h : StepRel s s2)
    {fp : FP} {r : FetchResult FI E} (hl : lookupD fp s.downloaded = some r) :
    lookupD fp s2.downloaded = some r := by
  rcases stepRel_elim h with
    ⟨i, c, hc, hpc, hdl, rfl⟩ | ⟨i, c, hc, hpc, hnone, hmem, rfl⟩ |
    ⟨i, c, hc, hpc, hnone, hnmem, rfl⟩ | ⟨i, c, r2, hc, hpc, hdl, rfl⟩ |
    ⟨i, c, r2, hc, hpc, rfl⟩ | ⟨i, r2, rest, c, hp, hc, rfl⟩
  · exact hl
  · exact hl
  · exact hl
  · exact hl
  · exact lookupD_append_some _ hl
  · exact hl

theorem downloaded_mono {s s2 : CoordState FP FI E} (h : Reaches s s2)
    {fp : FP} {r : FetchResult FI E} (hl : lookupD fp s.downloaded = some r) :
    lookupD fp s2.downloaded = some r := by
  induction h with
  | refl => exact hl
  | tail _ h2 ih => exact downloaded_mono_step h2 ih

theorem downloading_forward_step {s s2 : CoordState FP FI E} (hI : Inv s)
    (h : StepRel s s2) {fp : FP} (hm : fp ∈ s.downloading) :
    fp ∈ s2.downloading ∨ (lookupD fp s2.downloaded).isSome := by
  rcases stepRel_elim h with
    ⟨i, c, hc, hpc, hdl, rfl⟩ | ⟨i, c, hc, hpc, hnone, hmem, rfl⟩ |
    ⟨i, c, hc, hpc, hnone, hnmem, rfl⟩ | ⟨i, c, r2, hc, hpc, hdl, rfl⟩ |
    ⟨i, c, r2, hc, hpc, rfl⟩ | ⟨i, r2, rest, c, hp, hc, rfl⟩
  · exact Or.inl hm
  · exact Or.inl hm
  · exact Or.inl (List.mem_append_left _ hm)
  · exact Or.inl hm
  · by_cases hfp : c.fp = fp
    · subst hfp
      refine Or.inr ?_
      rw [lookupD_snoc_self r2 (hI.excl c.fp hm)]
      rfl
    · refine Or.inl ?_
      rw [List.Nodup.mem_erase_iff hI.nodupDl]
      exact ⟨fun he => hfp he.symm, hm⟩
  · exact Or.inl hm

theorem downloading_forward {s s2 : CoordState FP FI E} (h : Reaches s s2)
    (hI : Inv s) {fp : FP} (hm : fp ∈ s.downloading) :
    fp ∈ s2.downloading ∨ (lookupD fp s2.downloaded).isSome := by
  induction h with
  | refl => exact Or.inl hm
  | tail h1 h2 ih =>
    rcases ih with hmem | hsome
    · exact downloading_forward_step (inv_reach h1 hI) h2 hmem
    · obtain ⟨r, hr⟩ := Option.isSome_iff_exists.mp hsome
      refine Or.inr ?_
      rw [downloaded_mono_step h2 hr]
      rfl

theorem callers_fp_stable_step {s s2 : CoordState FP FI E}
    (h : StepRel s s2) :
    s2.callers.length = s.callers.length ∧
    ∀ j : Nat, (s2.callers[j]?).map Caller.fp = (s.callers[j]?).map Caller.fp := by
  rcases stepRel_elim h with
    ⟨i, c, hc, _, _, rfl⟩ | ⟨i, c, hc, _, _, _, rfl⟩ |
    ⟨i, c, hc, _, _, _, rfl⟩ | ⟨i, c, r, hc, _, _, rfl⟩ |
    ⟨i, c, r, hc, _, rfl⟩ | ⟨i, r, rest, c, _, hc, rfl⟩ <;>
  exact ⟨List.length_set _ _ _, fun j => by
    rw [getElem?_set_of_get hc]
    by_cases hij : i = j
    · subst hij
      rw [if_pos rfl, hc]
      rfl
    · rw [if_neg hij]⟩

theorem callers_fp_stable {s s2 : CoordState FP FI E} (h : Reaches s s2) :
    s2.callers.length = s.callers.length ∧
    ∀ j : Nat, (s2.callers[j]?).map Caller.fp = (s.callers[j]?).map Caller.fp := by
  induction h with
  | refl => exact ⟨rfl, fun j => rfl⟩
  | tail _ h2 ih =>
    obtain ⟨hl, hm⟩ := callers_fp_stable_step h2
    exact ⟨hl.trans ih.1, fun j => (hm j).trans (ih.2 j)⟩

/-- Claim C2: in every coordinator state reachable from the initial one, a
fingerprint is in at most one of `downloading` and `downloaded` (the
states not-seen / downloading / downloaded are exclusive); along any
further execution a cached entry is never overwritten or removed (later
lookups return the same value); a downloading fingerprint only moves
forward (still downloading, or downloaded — never back to not-seen); a
downloaded fingerprint is never downloading again; and no new download
chain is ever started for a fingerprint once it is cached — every later
request with it is served from the cache. -/
theorem media_fingerprint_forward_only (fps : List FP)
    (s s2 : CoordState FP FI E)
    (h1 : Reaches (initState FP FI E fps) s) (h2 : Reaches s s2) :
    (∀ fp : FP, ¬(fp ∈ s.downloading ∧ (lookupD fp s.downloaded).isSome)) ∧
    (∀ (fp : FP) (r : FetchResult FI E), lookupD fp s.downloaded = some r →
      lookupD fp s2.downloaded = some r) ∧
    (∀ fp : FP, fp ∈ s.downloading →
      fp ∈ s2.downloading ∨ (lookupD fp s2.downloaded).isSome) ∧
    (∀ fp : FP, (lookupD fp s.downloaded).isSome → fp ∉ s2.downloading) ∧
    (∀ fp : FP, (lookupD fp s.downloaded).isSome →
      fetchCount fp s2 = fetchCount fp s) := by
  have hIs : Inv s := inv_reach h1 (inv_init fps)
  have hIs2 : Inv s2 := inv_reach h2 hIs
  refine ⟨?_, ?_, ?_, ?_, ?_⟩
  · intro fp hand
    obtain ⟨hm, hs⟩ := hand
    rw [hIs.excl fp hm] at hs
    exact Bool.noConfusion hs
  · intro fp r hl
    exact downloaded_mono h2 hl
  · intro fp hm
    exact downloading_forward h2 hIs hm
  · intro fp hsome hmem
    obtain ⟨r, hr⟩ := Option.isSome_iff_exists.mp hsome
    have h2l := downloaded_mono h2 hr
    rw [hIs2.excl fp hmem] at h2l
    exact Option.noConfusion h2l
  · intro fp hsome
    obtain ⟨r, hr⟩ := Option.isSome_iff_exists.mp hsome
    have hs2some : (lookupD fp s2.downloaded).isSome = true := by
      rw [downloaded_mono h2 hr]
      rfl
    rw [hIs2.fetch_iff fp, hIs.fetch_iff fp, if_pos (Or.inr hs2some),
      if_pos (Or.inr hsome)]

/-- Witness for C2: a concrete two-caller execution — one step after the
first caller became leader, then completion with `ok 5` and delivery. -/
theorem media_fingerprint_forward_only_witness :
    (∀ fp : Nat,
      ¬(fp ∈ exampleMid.downloading ∧
        (lookupD fp exampleMid.downloaded).isSome)) ∧
    (∀ (fp : Nat) (r : FetchResult Nat Nat),
      lookupD fp exampleMid.downloaded = some r →
      lookupD fp exampleCached.downloaded = some r) ∧
    (∀ fp : Nat, fp ∈ exampleMid.downloading →
      fp ∈ exampleCached.downloading ∨
        (lookupD fp exampleCached.downloaded).isSome) ∧
    (∀ fp : Nat, (lookupD fp exampleMid.downloaded).isSome →
      fp ∉ exampleCached.downloading) ∧
    (∀ fp : Nat, (lookupD fp exampleMid.downloaded).isSome →
      fetchCount fp exampleCached = fetchCount fp exampleMid) :=
  media_fingerprint_forward_only [0, 0] exampleMid exampleCached
    (runActs_reaches [Act.arrive 0] (by decide))
    (runActs_reaches [Act.complete 0 (FetchResult.ok 5), Act.deliver]
      (by decide))

/-- Claim C1: for `N > 0` concurrent `_process_request` calls sharing one
fingerprint, in every complete execution (all callers done) exactly one
download chain was started for that fingerprint (it was added to
`downloading` and the fetch invoked exactly once), and there is a single
cached terminal result with which every caller's future was resolved —
the one `FileInfo` on success, or the one failure's error value on
failure. -/
theorem media_dedup_single_fetch (N : Nat) (fp : FP)
    (s2 : CoordState FP FI E) (hN : 0 < N)
    (hreach : Reaches (initState FP FI E (List.replicate N fp)) s2)
    (hdone : ∀ (i : Nat) (c : Caller FP FI E), s2.callers[i]? = some c →
      c.pc = PC.done) :
    fetchCount fp s2 = 1 ∧
    ∃ r : FetchResult FI E, lookupD fp s2.downloaded = some r ∧
      ∀ (i : Nat) (c : Caller FP FI E), s2.callers[i]? = some c →
        c.outcome = some r := by
  have hI2 : Inv s2 := inv_reach hreach (inv_init _)
  obtain ⟨hlen, hfpmap⟩ := callers_fp_stable hreach
  have hinitlen : (initState FP FI E (List.replicate N fp)).callers.length
      = N := by
    simp [initState]
  have hfpof : ∀ (j : Nat) (c : Caller FP FI E), s2.callers[j]? = some c →
      c.fp = fp := by
    intro j c hc
    have hmap := hfpmap j
    rw [hc] at hmap
    have hjlt : j < N := by
      have hj2 : j < s2.callers.length := by
        by_contra hge
        push_neg at hge
        rw [List.getElem?_eq_none hge] at hc
        exact Option.noConfusion hc
      rw [hlen, hinitlen] at hj2
      exact hj2
    have hinitj : (initState FP FI E (List.replicate N fp)).callers[j]?
        = some ⟨fp, PC.entry, Option.none⟩ := by
      simp [initState, List.getElem?_map, List.getElem?_replicate, hjlt]
    rw [hinitj] at hmap
    simpa using hmap
  have h0lt : 0 < s2.callers.length := by
    rw [hlen, hinitlen]
    exact hN
  obtain ⟨c0, hc0⟩ : ∃ c, s2.callers[0]? = some c :=
    ⟨_, List.getElem?_eq_getElem h0lt⟩
  have hpc0 := hdone 0 c0 hc0
  obtain ⟨r0, hr0⟩ := Option.isSome_iff_exists.mp (hI2.done_out 0 c0 hc0 hpc0)
  have hlk0 := hI2.outc 0 c0 r0 hc0 hr0
  rw [hfpof 0 c0 hc0] at hlk0
  refine ⟨?_, r0, hlk0, ?_⟩
  · rw [hI2.fetch_iff fp, if_pos (Or.inr (by rw [hlk0]; rfl))]
  · intro i c hc
    have hpci := hdone i c hc
    obtain ⟨ri, hri⟩ := Option.isSome_iff_exists.mp (hI2.done_out i c hc hpci)
    have hlki := hI2.outc i c ri hc hri
    rw [hfpof i c hc, hlk0] at hlki
    have heq := Option.some.inj hlki
    rw [hri, ← heq]

/-- Witness for C1: two concurrent callers for fingerprint 0; the leader
completes with `ok 5`, both deliveries fire, and the theorem yields one
fetch and both outcomes equal to the single cached result. -/
theorem media_dedup_single_fetch_witness :
    fetchCount 0 exampleAllDone = 1 ∧
    ∃ r : FetchResult Nat Nat, lookupD 0 exampleAllDone.downloaded = some r ∧
      ∀ (i : Nat) (c : Caller Nat Nat Nat),
        exampleAllDone.callers[i]? = some c → c.outcome = some r :=
  media_dedup_single_fetch 2 0 exampleAllDone (by decide)
    (runActs_reaches [Act.arrive 0, Act.arrive 1,
      Act.complete 0 (FetchResult.ok 5), Act.deliver, Act.deliver] (by decide))
    (by
      intro i c hc
      match i with
      | 0 =>
        have heq := Option.some.inj (show some (⟨0, PC.done,
          some (FetchResult.ok 5)⟩ : Caller Nat Nat Nat) = some c from hc)
        rw [← heq]
      | 1 =>
        have heq := Option.some.inj (show some (⟨0, PC.done,
          some (FetchResult.ok 5)⟩ : Caller Nat Nat Nat) = some c from hc)
        rw [← heq]
      | n + 2 =>
        exact Option.noConfusion (show (Option.none : Option (Caller Nat Nat
          Nat)) = some c from hc))

end Media

end Scrupyst
